import Mathlib

/-!
Verification of the persistent on-file linked list of the `tmdgusya/btree`
repository.  The development shallowly embeds the Go sources:

* the offset-addressed scheme (`src/unnamed/part_002`): byte codec for the
  40-byte file header, and the list operations `appendTail`, `prependHead`,
  `deleteFirstByValue`, `traverseValues` over a file state modelled as the
  header plus the sequence of 16-byte node records that follow it;
* the paged/slotted scheme (`src/unnamed/part_003` and
  `src/chapter02/paged_linked_list/main.go`): slot allocator, buffered and
  unbuffered traversal;
* the I/O comparison tool (`src/chapter02/compare/main.go`):
  `pagedTraverseWithPageStats`.

Machine integers are embedded as `Nat`/`Int`; conversions that matter
(`uint64(int64)` and back) are explicit `% 2^64` arithmetic.  Fallible I/O
is `Option`/`Except`.  Loops that follow on-disk `next` pointers are given
fuel bounded by the number of records in the file; on every well-formed
state (acyclic chain) the fuel is never exhausted, so the embedding agrees
with the Go code there, and returns `none` exactly where the Go code would
loop forever or fail an I/O call.

The file is organised as definitions first, then the theorems.
-/

set_option maxHeartbeats 1000000

namespace OffsetList

/-- Big-endian bytes of a 16-bit value, as produced by `Endian.AppendUint16`. -/
def be16 (v : Nat) : List Nat := [v / 2 ^ 8 % 256, v % 256]

/-- Big-endian bytes of a 64-bit value, as produced by `Endian.AppendUint64`. -/
def be64 (v : Nat) : List Nat :=
  [v / 2 ^ 56 % 256, v / 2 ^ 48 % 256, v / 2 ^ 40 % 256, v / 2 ^ 32 % 256,
   v / 2 ^ 24 % 256, v / 2 ^ 16 % 256, v / 2 ^ 8 % 256, v % 256]

/-- Big-endian value of a byte list (`Endian.Uint16`/`Endian.Uint64` on a slice). -/
def beVal : List Nat → Nat
  | [] => 0
  | b :: rest => b * 256 ^ rest.length + beVal rest

/-- Go conversion `uint64(x)` for an `int64` value `x`: the two's-complement bits. -/
def toUInt64 (x : Int) : Nat := (x % (2 ^ 64 : Int)).toNat

/-- Go conversion `int64(n)` for a `uint64` value `n`. -/
def toInt64 (n : Nat) : Int := if n < 2 ^ 63 then (n : Int) else (n : Int) - 2 ^ 64

/-- Magic bytes `'L','L','S','T'` of the offset scheme (`var Magic` in part_002). -/
def Magic : List Nat := [76, 76, 83, 84]

/-- Null offset sentinel (`const NullOffset int64 = -1`). -/
def NullOffset : Int := -1

/-- File header of the offset scheme (`type Header struct` in part_002). -/
structure Header where
  magic : List Nat
  version : Nat
  pageSize : Nat
  headOffset : Int
  tailOffset : Int
  size : Int
  freeList : Int
deriving Repr, DecidableEq

/-- Field ranges imposed by the Go types of `Header`
(`[4]byte`, `uint16`, `uint16`, and four `int64` fields). -/
def Header.WF (h : Header) : Prop :=
  h.magic.length = 4 ∧ (∀ b ∈ h.magic, b < 256) ∧
  h.version < 2 ^ 16 ∧ h.pageSize < 2 ^ 16 ∧
  -2 ^ 63 ≤ h.headOffset ∧ h.headOffset < 2 ^ 63 ∧
  -2 ^ 63 ≤ h.tailOffset ∧ h.tailOffset < 2 ^ 63 ∧
  -2 ^ 63 ≤ h.size ∧ h.size < 2 ^ 63 ∧
  -2 ^ 63 ≤ h.freeList ∧ h.freeList < 2 ^ 63

instance (h : Header) : Decidable h.WF := by
  unfold Header.WF; infer_instance

/-- Byte image produced by `writeHeader` (part_002, lines 53-69): magic,
then big-endian Version, PageSize, HeadOffset, TailOffset, Size, FreeList. -/
def writeHeaderBytes (h : Header) : List Nat :=
  h.magic ++ be16 h.version ++ be16 h.pageSize ++
  be64 (toUInt64 h.headOffset) ++ be64 (toUInt64 h.tailOffset) ++
  be64 (toUInt64 h.size) ++ be64 (toUInt64 h.freeList)

/-- Errors surfaced by `readHeader`: a short read (`io.ReadFull` failure) or
`ErrInvalidMagic`. -/
inductive ReadError where
  | unexpectedEOF
  | invalidMagic
deriving Repr, DecidableEq

/-- Slice `buf[a:b]` of a byte list. -/
def slice (buf : List Nat) (a b : Nat) : List Nat := (buf.take b).drop a

instance exceptDecEq {ε α : Type} [DecidableEq ε] [DecidableEq α] :
    DecidableEq (Except ε α)
  | .error e1, .error e2 =>
    if h : e1 = e2 then isTrue (by rw [h]) else isFalse (by simp [h])
  | .error _, .ok _ => isFalse (by simp)
  | .ok _, .error _ => isFalse (by simp)
  | .ok a1, .ok a2 =>
    if h : a1 = a2 then isTrue (by rw [h]) else isFalse (by simp [h])

/-- Parse of the 40 header bytes performed by `readHeader` (part_002, lines
112-138).  `io.ReadFull` demands 40 bytes; the magic is validated before the
remaining fields are decoded. -/
def readHeaderBytes (buf : List Nat) : Except ReadError Header :=
  if buf.length < 40 then .error .unexpectedEOF
  else
    let magic := slice buf 0 4
    if magic ≠ Magic then .error .invalidMagic
    else .ok
      { magic := magic
        version := beVal (slice buf 4 6)
        pageSize := beVal (slice buf 6 8)
        headOffset := toInt64 (beVal (slice buf 8 16))
        tailOffset := toInt64 (beVal (slice buf 16 24))
        size := toInt64 (beVal (slice buf 24 32))
        freeList := toInt64 (beVal (slice buf 32 40)) }

/-- Fresh header written by `Open` on an empty or truncated file. -/
def freshHeader : Header :=
  { magic := Magic, version := 1, pageSize := 4096,
    headOffset := NullOffset, tailOffset := NullOffset,
    size := 0, freeList := NullOffset }

/-- Embedding of `Open` (part_002, lines 72-110) acting on the file contents:
truncation empties the file, an empty file receives a fresh header, and the
header is then read back and validated in all cases. -/
def openList (contents : List Nat) (truncate : Bool) :
    Except ReadError (Header × List Nat) :=
  let c0 := if truncate then [] else contents
  let c1 := if c0.length = 0 then writeHeaderBytes freshHeader else c0
  (readHeaderBytes c1).map fun h => (h, c1)

/-- The header layout exactly as the specification words it for the offset
scheme: magic, version, headOffset, tailOffset, size, freeList and no other
fields.  Kept for comparison with `writeHeaderBytes`, which the source
defines. -/
def writeHeaderSpecLayout (h : Header) : List Nat :=
  h.magic ++ be16 h.version ++
  be64 (toUInt64 h.headOffset) ++ be64 (toUInt64 h.tailOffset) ++
  be64 (toUInt64 h.size) ++ be64 (toUInt64 h.freeList)

/-- A well-formed header whose magic bytes are not `LLST`; the claim "for
every header value h, readHeader(writeHeader(h)) == h" must cover it. -/
def badMagicHeader : Header :=
  { magic := [0, 0, 0, 0], version := 1, pageSize := 4096,
    headOffset := NullOffset, tailOffset := NullOffset, size := 0,
    freeList := NullOffset }

/-- A non-empty file holding only the first 39 bytes of a valid header: its
first four bytes match the magic, yet `Open` cannot read a full header. -/
def shortFile : List Nat := (writeHeaderBytes freshHeader).take 39

/-- On-disk record of the offset scheme (`type Node struct` in part_002):
`Value uint32`, `Next int64`, `Tomb uint8` (plus 3 padding bytes on disk). -/
structure Node where
  value : Nat
  next : Int
  tomb : Nat
deriving Repr, DecidableEq

/-- Byte position of record number `i`: records are 16 bytes
(`nodeOnDiskSize`) and start right after the 40-byte header. -/
def offOf (i : Nat) : Int := 40 + 16 * i

/-- File state of the offset scheme: the in-memory header, the record area
(record `i` lives at byte offset `offOf i`; `appendTail`/`prependHead` only
ever write at end-of-file, so the record area is a dense sequence), and a
count of write calls (`writeNodeAt` + `writeHeader`) for instrumentation. -/
structure OffState where
  hdr : Header
  nodes : List Node
  writes : Nat
deriving Repr, DecidableEq

/-- Embedding of `readNodeAt` (part_002, lines 162-180): a read at a record
offset returns that record; a read outside the record grid fails (the Go
code would fail with an I/O error past end-of-file, and no reachable state
reads a misaligned offset). -/
def readNodeAt (s : OffState) (off : Int) : Option Node :=
  if off < 40 ∨ (off - 40) % 16 ≠ 0 then none
  else s.nodes.get? ((off - 40) / 16).toNat

/-- Embedding of `writeNodeAt` (part_002, lines 144-160): overwrite an
existing record or append one exactly at end-of-file. -/
def writeNodeAt (s : OffState) (off : Int) (n : Node) : Option OffState :=
  if off < 40 ∨ (off - 40) % 16 ≠ 0 then none
  else
    let i := ((off - 40) / 16).toNat
    if i < s.nodes.length then
      some { s with nodes := s.nodes.set i n, writes := s.writes + 1 }
    else if i = s.nodes.length then
      some { s with nodes := s.nodes ++ [n], writes := s.writes + 1 }
    else none

/-- Embedding of `writeHeader` as a state update (the byte image it writes is
`writeHeaderBytes`, covered by the codec theorems). -/
def putHeader (s : OffState) (h : Header) : OffState :=
  { s with hdr := h, writes := s.writes + 1 }

/-- End-of-file offset (`f.Seek(0, io.SeekEnd)`); the file holds the 40-byte
header followed by the 16-byte records. -/
def endOff (s : OffState) : Int := offOf s.nodes.length

/-- Embedding of `appendTail` (part_002, lines 183-221). -/
def appendTail (s : OffState) (value : Nat) : Option OffState := do
  let newNode : Node := { value := value, next := NullOffset, tomb := 0 }
  let newOff := endOff s
  let s1 ← writeNodeAt s newOff newNode
  if s1.hdr.headOffset = NullOffset then
    return putHeader s1 { s1.hdr with headOffset := newOff, tailOffset := newOff,
                                      size := s1.hdr.size + 1 }
  else
    let tailNode ← readNodeAt s1 s1.hdr.tailOffset
    let s2 ← writeNodeAt s1 s1.hdr.tailOffset { tailNode with next := newOff }
    return putHeader s2 { s2.hdr with tailOffset := newOff, size := s2.hdr.size + 1 }

/-- Embedding of `prependHead` (part_002, lines 224-248). -/
def prependHead (s : OffState) (value : Nat) : Option OffState := do
  let newNode : Node := { value := value, next := s.hdr.headOffset, tomb := 0 }
  let newOff := endOff s
  let s1 ← writeNodeAt s newOff newNode
  let hdr1 : Header := if s1.hdr.headOffset = NullOffset
              then { s1.hdr with tailOffset := newOff } else s1.hdr
  return putHeader s1 { hdr1 with headOffset := newOff, size := hdr1.size + 1 }

/-- Scan loop of `deleteFirstByValue` (part_002, lines 258-309), with fuel.
On a live match the record is tombstoned and its `Next` repurposed as the
free-list link, the predecessor (or the head pointer) is spliced around it,
the tail pointer retreats when needed, `Size` is decremented (guarded by
`Size > 0`), and the header is written. -/
def deleteLoop (s : OffState) (value : Nat) : Int → Int → Nat → Option (OffState × Bool)
  | _, _, 0 => none
  | prevOff, off, fuel + 1 =>
    if off = NullOffset then some (s, false)
    else do
      let node ← readNodeAt s off
      if node.value = value ∧ node.tomb = 0 then do
        let originalNext := node.next
        let s1 ← writeNodeAt s off { node with next := s.hdr.freeList, tomb := 1 }
        if prevOff = NullOffset then
          let hdr1 : Header := { s1.hdr with freeList := off, headOffset := originalNext }
          let hdr2 : Header := if originalNext = NullOffset
                      then { hdr1 with tailOffset := NullOffset } else hdr1
          let hdr3 : Header := if hdr2.size > 0 then { hdr2 with size := hdr2.size - 1 } else hdr2
          return (putHeader s1 hdr3, true)
        else do
          let prevNode ← readNodeAt s1 prevOff
          let s2 ← writeNodeAt s1 prevOff { prevNode with next := originalNext }
          let hdr1 : Header := { s2.hdr with freeList := off }
          let hdr2 : Header := if off = s2.hdr.tailOffset
                      then { hdr1 with tailOffset := prevOff } else hdr1
          let hdr3 : Header := if hdr2.size > 0 then { hdr2 with size := hdr2.size - 1 } else hdr2
          return (putHeader s2 hdr3, true)
      else
        deleteLoop s value off node.next fuel

/-- The guarded size decrement appearing at the end of a successful delete
(`if h.Size > 0 { h.Size-- }`), named for use in the loop lemmas. -/
def Header.sizeDec (h : Header) : Header :=
  if h.size > 0 then { h with size := h.size - 1 } else h

/-- Embedding of `deleteFirstByValue` (part_002, lines 250-312).  The Go scan
is unbounded; fuel `nodes.length + 1` covers every acyclic chain, which every
reachable state has. -/
def deleteFirstByValue (s : OffState) (value : Nat) : Option (OffState × Bool) :=
  if s.hdr.headOffset = NullOffset then some (s, false)
  else deleteLoop s value NullOffset s.hdr.headOffset (s.nodes.length + 1)

/-- Traversal loop of `traverseValues` (part_002, lines 314-329), with fuel. -/
def traverseLoop (s : OffState) : Int → Nat → Option (List Nat)
  | _, 0 => none
  | off, fuel + 1 =>
    if off = NullOffset then some []
    else do
      let node ← readNodeAt s off
      let rest ← traverseLoop s node.next fuel
      return if node.tomb = 0 then node.value :: rest else rest

/-- Embedding of `traverseValues`: follow `Next` from the head, keeping the
values of records whose `Tomb` is 0. -/
def traverseValues (s : OffState) : Option (List Nat) :=
  traverseLoop s s.hdr.headOffset (s.nodes.length + 1)

/-- State right after `Open(path, true)`: a truncated file holding only the
fresh header. -/
def freshState : OffState := { hdr := freshHeader, nodes := [], writes := 0 }

/-- One list operation, for quantifying over operation sequences. -/
inductive Op where
  | append (v : Nat)
  | prepend (v : Nat)
  | delete (v : Nat)
deriving Repr, DecidableEq

/-- Run a sequence of operations from a state; the returned `Nat` counts the
`deleteFirstByValue` calls that returned `found == true`. -/
def runOps : OffState → List Op → Option (OffState × Nat)
  | s, [] => some (s, 0)
  | s, Op.append v :: rest => do
      let s' ← appendTail s v
      runOps s' rest
  | s, Op.prepend v :: rest => do
      let s' ← prependHead s v
      runOps s' rest
  | s, Op.delete v :: rest => do
      let (s', found) ← deleteFirstByValue s v
      let (s'', d) ← runOps s' rest
      return (s'', d + if found then 1 else 0)

/-- Number of insert operations (`appendTail` or `prependHead`) in a
sequence. -/
def inserts : List Op → Nat
  | [] => 0
  | Op.append _ :: rest => inserts rest + 1
  | Op.prepend _ :: rest => inserts rest + 1
  | Op.delete _ :: rest => inserts rest

/-- The scenario exactly as claim C1 words it: `prependHead` called with 2,
then 1, then 0, then `appendTail` with 3, 4, 5, then `deleteFirstByValue 3`,
then a logical traversal. -/
def c1ClaimedRun : Option (List Nat × Bool) := do
  let s1 ← prependHead freshState 2
  let s2 ← prependHead s1 1
  let s3 ← prependHead s2 0
  let s4 ← appendTail s3 3
  let s5 ← appendTail s4 4
  let s6 ← appendTail s5 5
  let (s7, found) ← deleteFirstByValue s6 3
  let vs ← traverseValues s7
  return (vs, found)

/-- The scenario as the source's own `main` runs it (part_002, lines
331-393): `prependHead` called with 0, then 1, then 2 — producing the list
2, 1, 0 — then `appendTail` with 3, 4, 5, then `deleteFirstByValue 3`. -/
def c1SourceRun : Option (List Nat × Bool) := do
  let s1 ← prependHead freshState 0
  let s2 ← prependHead s1 1
  let s3 ← prependHead s2 2
  let s4 ← appendTail s3 3
  let s5 ← appendTail s4 4
  let s6 ← appendTail s5 5
  let (s7, found) ← deleteFirstByValue s6 3
  let vs ← traverseValues s7
  return (vs, found)

/-- A one-record list state holding only the live value 5, used as a
concrete instance for the delete-miss theorem. -/
def c6WitnessState : OffState :=
  { hdr := { freshHeader with headOffset := offOf 0, tailOffset := offOf 0, size := 1 },
    nodes := [Node.mk 5 NullOffset 0],
    writes := 0 }

/-- State after `appendTail freshState 5`: one record at offset 40. -/
def c8sA : OffState :=
  { hdr := { magic := Magic, version := 1, pageSize := 4096, headOffset := 40,
             tailOffset := 40, size := 1, freeList := NullOffset },
    nodes := [Node.mk 5 NullOffset 0],
    writes := 2 }

/-- State after `prependHead c8sA 9`: the new head record sits at end-of-file
offset 56 and links back to offset 40. -/
def c8sB : OffState :=
  { hdr := { magic := Magic, version := 1, pageSize := 4096, headOffset := 56,
             tailOffset := 40, size := 2, freeList := NullOffset },
    nodes := [Node.mk 5 NullOffset 0, Node.mk 9 40 0],
    writes := 4 }

/-- State after `deleteFirstByValue c8sB 5`: record 0 tombstoned and heading
the free list, record 1 spliced to the null offset, tail retreated. -/
def c8sC : OffState :=
  { hdr := { magic := Magic, version := 1, pageSize := 4096, headOffset := 56,
             tailOffset := 56, size := 1, freeList := 40 },
    nodes := [Node.mk 5 NullOffset 1, Node.mk 9 NullOffset 0],
    writes := 7 }

/-- The live chain structure: `ChainSeg nodes stop off l` holds when
following `Next` pointers from offset `off` visits exactly the records with
indices `l`, all live (`tomb = 0`), and ends at offset `stop`. -/
inductive ChainSeg (nodes : List Node) (stop : Int) : Int → List Nat → Prop
  | nil : ChainSeg nodes stop stop []
  | cons {i : Nat} {n : Node} {rest : List Nat}
      (hget : nodes.get? i = some n) (hlive : n.tomb = 0)
      (hnext : ChainSeg nodes stop n.next rest) :
      ChainSeg nodes stop (offOf i) (i :: rest)

/-- Offset of the last record of a chain, or the null sentinel. -/
def lastOff (l : List Nat) : Int :=
  match l.getLast? with
  | none => NullOffset
  | some i => offOf i

/-- Well-formedness invariant of a reachable offset-scheme state: following
`Next` from the head visits a duplicate-free list of live records, the tail
pointer names its last record, and `Size` is its length. -/
def Inv (s : OffState) : Prop :=
  ∃ l : List Nat, ChainSeg s.nodes NullOffset s.hdr.headOffset l ∧
    l.Nodup ∧ s.hdr.tailOffset = lastOff l ∧ s.hdr.size = l.length

end OffsetList

namespace PagedList

/-- Constants of the paged scheme (part_003 and
`chapter02/paged_linked_list/main.go`, identical layouts): 4096-byte pages,
a 2-byte used-slot-count page header, 12-byte slots, hence 341 slots per
page. -/
def PAGE_SIZE : Nat := 4096

def PAGE_HEADER_SIZE : Nat := 2

def SLOT_SIZE : Nat := 12

def SLOTS_PER_PAGE : Nat := (PAGE_SIZE - PAGE_HEADER_SIZE) / SLOT_SIZE

/-- Null page sentinel, all bits of a `uint32` set. -/
def NullPage : Nat := 2 ^ 32 - 1

/-- Null slot sentinel, all bits of a `uint16` set. -/
def NullSlot : Nat := 2 ^ 16 - 1

/-- Paged-scheme record (`type Node struct`): value, successor address as a
(page, slot) pair, tombstone and one padding byte. -/
structure Node where
  value : Nat
  nextPage : Nat
  nextSlot : Nat
  tomb : Nat
  pad : Nat
deriving Repr, DecidableEq

/-- Paged-scheme file header (`type Header struct`).  The magic bytes are
common to the scheme and never consulted by the functions modelled here; the
numeric fields are kept. -/
structure Header where
  version : Nat
  pageSize : Nat
  pageCount : Nat
  headPage : Nat
  headSlot : Nat
  tailPage : Nat
  tailSlot : Nat
  size : Nat
deriving Repr, DecidableEq

/-- One on-disk page: the 2-byte used-slot-count followed by its slots
(always `SLOTS_PER_PAGE` of them in a real page image). -/
structure Page where
  used : Nat
  slots : List Node
deriving Repr, DecidableEq

/-- File state of the paged scheme: header plus the pages that follow it
(page `i` at byte offset `HEADER_SIZE + i * PAGE_SIZE`). -/
structure PState where
  hdr : Header
  pages : List Page
deriving Repr, DecidableEq

/-- The all-zero record a fresh page holds in every slot. -/
def zeroNode : Node := ⟨0, 0, 0, 0, 0⟩

/-- A fresh zero-filled page (`initEmptyPage` writes `PAGE_SIZE` zero
bytes): used-slot-count 0 and all slots zero. -/
def emptyPage : Page := ⟨0, List.replicate SLOTS_PER_PAGE zeroNode⟩

/-- Embedding of `initEmptyPage`: overwrite an existing page with zeros or
append a fresh page exactly at end-of-file; a write beyond that would leave
a hole and is unreachable. -/
def initEmptyPage (s : PState) (pageID : Nat) : Option PState :=
  if pageID < s.pages.length then
    some { s with pages := s.pages.set pageID emptyPage }
  else if pageID = s.pages.length then
    some { s with pages := s.pages ++ [emptyPage] }
  else none

/-- Embedding of `readPageHeader`: the used-slot-count of a page. -/
def readPageHeader (s : PState) (pageID : Nat) : Option Nat :=
  (s.pages.get? pageID).map Page.used

/-- Embedding of `writePageHeader`: overwrite a page's used-slot-count. -/
def writePageHeader (s : PState) (pageID used : Nat) : Option PState :=
  match s.pages.get? pageID with
  | none => none
  | some pg => some { s with pages := s.pages.set pageID { pg with used := used } }

/-- Embedding of `readSlot`: the record in slot `slotID` of page `pageID`.
A slot index at or past `SLOTS_PER_PAGE` would read the next page's bytes in
Go; no reachable state does that, and the model fails there. -/
def readSlot (s : PState) (pageID slotID : Nat) : Option Node := do
  let pg ← s.pages.get? pageID
  pg.slots.get? slotID

/-- Embedding of `allocateSlot` (part_003, lines 263-296): create page 0
when no page exists, otherwise use the last page, falling back to a new
zero-filled page when the last one is full; the chosen page's used-slot
count is incremented and persisted, and the slot index returned is the count
before the increment. -/
def allocateSlot (s : PState) : Option (PState × Nat × Nat) := do
  let (s1, pageID) ←
    if s.hdr.pageCount = 0 then do
      let s0 ← initEmptyPage s 0
      some ({ s0 with hdr := { s0.hdr with pageCount := 1 } }, 0)
    else
      some (s, s.hdr.pageCount - 1)
  let used ← readPageHeader s1 pageID
  let (s2, pageID2, used2) ←
    if SLOTS_PER_PAGE ≤ used then do
      let pid := s1.hdr.pageCount
      let s0 ← initEmptyPage s1 pid
      some ({ s0 with hdr := { s0.hdr with pageCount := s0.hdr.pageCount + 1 } }, pid, 0)
    else
      some (s1, pageID, used)
  let s3 ← writePageHeader s2 pageID2 (used2 + 1)
  return (s3, pageID2, used2)

/-- The page-buffer cache of `chapter02/paged_linked_list/main.go`
(`type PageBuffer struct`): at most one page's bytes, its id, and a
validity flag. -/
structure PageBuffer where
  pageID : Nat
  data : Option Page
  valid : Bool
deriving Repr, DecidableEq

/-- Embedding of `PageBuffer.loadPage`: one full-page read into the
buffer. -/
def loadPage (s : PState) (pb : PageBuffer) (pageID : Nat) : Option PageBuffer := do
  let pg ← s.pages.get? pageID
  return { pageID := pageID, data := some pg, valid := true }

/-- Embedding of `readSlotWithBuffer` (lines 510-533): load the page only
when the cache is invalid or holds a different page, then slice the slot out
of the buffered bytes.  The returned `Nat` counts the page loads this call
performed (0 or 1). -/
def readSlotWithBuffer (s : PState) (pb : PageBuffer) (pageID slotID : Nat) :
    Option (Node × PageBuffer × Nat) := do
  let (pb2, loads) ←
    if pb.valid = false ∨ pb.pageID ≠ pageID then do
      let pb3 ← loadPage s pb pageID
      some (pb3, 1)
    else some (pb, 0)
  let pg ← pb2.data
  let node ← pg.slots.get? slotID
  return (node, pb2, loads)

/-- Fuel bound: no acyclic chain can visit more records than the file
holds. -/
def totalSlots (s : PState) : Nat := s.pages.length * SLOTS_PER_PAGE

/-- Unbuffered traversal loop (part_003 `traverseValues`, which reads each
slot individually with `readSlot`), also counting the slot reads. -/
def traverseLoopU (s : PState) : Nat → Nat → Nat → Option (List Nat × Nat)
  | _, _, 0 => none
  | page, slot, fuel + 1 =>
    if page ≠ NullPage ∧ slot ≠ NullSlot then do
      let node ← readSlot s page slot
      let (rest, reads) ← traverseLoopU s node.nextPage node.nextSlot fuel
      return ((if node.tomb = 0 then node.value :: rest else rest), reads + 1)
    else some ([], 0)

/-- Unbuffered logical traversal with its read count. -/
def traverseValuesUnbuffered (s : PState) : Option (List Nat × Nat) :=
  traverseLoopU s s.hdr.headPage s.hdr.headSlot (totalSlots s + 1)

/-- Buffered traversal loop (`TraverseValues`, lines 432-460, which reads
through `readSlotWithBuffer`), also counting the full-page loads. -/
def traverseLoopB (s : PState) : Nat → Nat → PageBuffer → Nat → Option (List Nat × Nat)
  | _, _, _, 0 => none
  | page, slot, pb, fuel + 1 =>
    if page ≠ NullPage ∧ slot ≠ NullSlot then do
      let (node, pb2, l) ← readSlotWithBuffer s pb page slot
      let (rest, loads) ← traverseLoopB s node.nextPage node.nextSlot pb2 fuel
      return ((if node.tomb = 0 then node.value :: rest else rest), loads + l)
    else some ([], 0)

/-- Buffered logical traversal (`TraverseValues`) with its page-load count;
the buffer starts invalid. -/
def TraverseValues (s : PState) : Option (List Nat × Nat) :=
  traverseLoopB s s.hdr.headPage s.hdr.headSlot ⟨0, none, false⟩ (totalSlots s + 1)

/-- The (page, slot, record) sequence a traversal visits, in order. -/
def visitsLoop (s : PState) : Nat → Nat → Nat → Option (List (Nat × Nat × Node))
  | _, _, 0 => none
  | page, slot, fuel + 1 =>
    if page ≠ NullPage ∧ slot ≠ NullSlot then do
      let node ← readSlot s page slot
      let rest ← visitsLoop s node.nextPage node.nextSlot fuel
      return (page, slot, node) :: rest
    else some []

/-- The visit sequence of the logical traversal. -/
def visits (s : PState) : Option (List (Nat × Nat × Node)) :=
  visitsLoop s s.hdr.headPage s.hdr.headSlot (totalSlots s + 1)

/-- Values of the live records of a visit sequence, in order. -/
def liveValues : List (Nat × Nat × Node) → List Nat
  | [] => []
  | (_, _, n) :: rest =>
    if n.tomb = 0 then n.value :: liveValues rest else liveValues rest

/-- Page ids of a visit sequence, in order. -/
def visitPages (vl : List (Nat × Nat × Node)) : List Nat := vl.map fun x => x.1

/-- Number of page switches of a page-id sequence, starting from an
optional cached page. -/
def runsCountFrom : Option Nat → List Nat → Nat
  | _, [] => 0
  | c, p :: rest => (if c = some p then 0 else 1) + runsCountFrom (some p) rest

/-- Number of maximal runs of consecutive equal page ids (the cache starts
invalid). -/
def runsCount (l : List Nat) : Nat := runsCountFrom none l

/-- Whether two consecutive visits share a page. -/
def hasAdjacentSharedPage : List Nat → Bool
  | [] => false
  | [_] => false
  | a :: b :: rest => (a == b) || hasAdjacentSharedPage (b :: rest)

/-- Cached page id of a buffer, when valid. -/
def cachedPage (pb : PageBuffer) : Option Nat :=
  if pb.valid then some pb.pageID else none

/-- Consistency of a buffer with the file: a valid buffer holds a copy of
the page it names. -/
def BufOk (s : PState) (pb : PageBuffer) : Prop :=
  pb.valid = true → ∃ pg, s.pages.get? pb.pageID = some pg ∧ pb.data = some pg

/-- A one-page list with three records chained through slots 0, 1, 2, used
as a concrete instance for C5. -/
def c5Page0 : Page :=
  { used := 3,
    slots := [Node.mk 10 0 1 0 0, Node.mk 20 0 2 0 0,
              Node.mk 30 NullPage NullSlot 0 0] ++ List.replicate 338 zeroNode }

def c5State : PState :=
  { hdr := { version := 2, pageSize := 4096, pageCount := 1, headPage := 0,
             headSlot := 0, tailPage := 0, tailSlot := 2, size := 3 },
    pages := [c5Page0] }

/-- The visit sequence of `c5State`. -/
def c5Visits : List (Nat × Nat × Node) :=
  [(0, 0, Node.mk 10 0 1 0 0), (0, 1, Node.mk 20 0 2 0 0),
   (0, 2, Node.mk 30 NullPage NullSlot 0 0)]

/-- An empty paged state, as produced by opening with truncate. -/
def freshPState : PState :=
  { hdr := { version := 2, pageSize := 4096, pageCount := 0, headPage := NullPage,
             headSlot := NullSlot, tailPage := NullPage, tailSlot := NullSlot,
             size := 0 },
    pages := [] }

end PagedList

namespace CompareTool

/-- Paged-scheme record of the comparison tool
(`chapter02/compare/main.go`, `type PagedNode struct`): no tombstone. -/
structure PagedNode where
  value : Nat
  nextPage : Nat
  nextSlot : Nat
deriving Repr, DecidableEq

/-- Page of the comparison tool's paged scheme: used-slot-count plus
slots (10 bytes each there, 409 per page). -/
structure Page where
  used : Nat
  slots : List PagedNode
deriving Repr, DecidableEq

/-- Numeric fields of the comparison tool's `PagedHeader`. -/
structure PagedHeader where
  version : Nat
  pageSize : Nat
  pageCount : Nat
  headPage : Nat
  headSlot : Nat
  tailPage : Nat
  tailSlot : Nat
  size : Int
deriving Repr, DecidableEq

/-- File state of the comparison tool's paged list. -/
structure CState where
  hdr : PagedHeader
  pages : List Page
deriving Repr, DecidableEq

/-- Embedding of the tool's `readPageHeader`. -/
def readPageHeader (s : CState) (pageID : Nat) : Option Nat :=
  (s.pages.get? pageID).map Page.used

/-- Embedding of the tool's `readSlot`. -/
def readSlot (s : CState) (pageID slotID : Nat) : Option PagedNode := do
  let pg ← s.pages.get? pageID
  pg.slots.get? slotID

/-- Inner loop of `pagedTraverseWithPageStats` over the used slots of one
page: every slot is read and the result discarded, exactly as in the source
(`_, err := readSlot(f, pageID, slotID)`).  Returns the number of slot
reads. -/
def statsSlots (s : CState) (pageID : Nat) : Nat → Option Nat
  | 0 => some 0
  | k + 1 => do
      let r ← statsSlots s pageID k
      let _node ← readSlot s pageID k
      return r + 1

/-- Outer loop of `pagedTraverseWithPageStats` over pages `0 ..
pageCount-1`. -/
def statsPages (s : CState) : Nat → Option Nat
  | 0 => some 0
  | p + 1 => do
      let r ← statsPages s p
      let used ← readPageHeader s p
      let sr ← statsSlots s p used
      return r + sr

/-- Embedding of `pagedTraverseWithPageStats` (compare/main.go, lines
652-671): `values` and `pageVisits` are created empty and the loops read
every used slot of every page without ever appending a value or recording a
visit, so both come back empty; the third component counts the slot
reads. -/
def pagedTraverseWithPageStats (s : CState) :
    Option (List Nat × List (Nat × Nat) × Nat) := do
  let values : List Nat := []
  let pageVisits : List (Nat × Nat) := []
  let slotReads ← statsPages s s.hdr.pageCount
  return (values, pageVisits, slotReads)

/-- A two-page state holding five records, used as a concrete instance for
C10. -/
def c10State : CState :=
  { hdr := { version := 2, pageSize := 4096, pageCount := 2, headPage := 0,
             headSlot := 0, tailPage := 1, tailSlot := 1, size := 5 },
    pages := [{ used := 3, slots := [⟨100, 0, 1⟩, ⟨101, 0, 2⟩, ⟨102, 1, 0⟩] },
              { used := 2, slots := [⟨103, 1, 1⟩, ⟨104, 0, 0⟩] }] }

end CompareTool

namespace OffsetList

theorem beVal_be16 {v : Nat} (h : v < 2 ^ 16) : beVal (be16 v) = v := by
  show v / 2 ^ 8 % 256 * 256 ^ 1 + (v % 256 * 256 ^ 0 + 0) = v
  norm_num; omega

theorem beVal_be64 {v : Nat} (h : v < 2 ^ 64) : beVal (be64 v) = v := by
  show v / 2 ^ 56 % 256 * 256 ^ 7 + (v / 2 ^ 48 % 256 * 256 ^ 6 +
    (v / 2 ^ 40 % 256 * 256 ^ 5 + (v / 2 ^ 32 % 256 * 256 ^ 4 +
    (v / 2 ^ 24 % 256 * 256 ^ 3 + (v / 2 ^ 16 % 256 * 256 ^ 2 +
    (v / 2 ^ 8 % 256 * 256 ^ 1 + (v % 256 * 256 ^ 0 + 0))))))) = v
  norm_num; omega

theorem toUInt64_lt (x : Int) : toUInt64 x < 2 ^ 64 := by
  unfold toUInt64; omega

theorem toInt64_toUInt64 {x : Int} (h1 : -2 ^ 63 ≤ x) (h2 : x < 2 ^ 63) :
    toInt64 (toUInt64 x) = x := by
  unfold toUInt64 toInt64; split <;> omega

theorem magic_shape {l : List Nat} (h : l.length = 4) :
    ∃ a b c d, l = [a, b, c, d] := by
  rcases l with _ | ⟨a, _ | ⟨b, _ | ⟨c, _ | ⟨d, _ | ⟨e, t⟩⟩⟩⟩⟩ <;> simp_all

/-- Helper: a well-formed header with the correct magic round-trips through
the byte codec. -/
theorem header_roundtrip_aux (h : Header) (hwf : h.WF) (hm : h.magic = Magic) :
    readHeaderBytes (writeHeaderBytes h) = Except.ok h := by
  obtain ⟨hlen, hbytes, hv, hp, ho1, ho2, ht1, ht2, hs1, hs2, hf1, hf2⟩ := hwf
  simp only [writeHeaderBytes, hm, Magic, be16, be64, List.cons_append, List.nil_append,
    readHeaderBytes, slice]
  norm_num
  obtain ⟨mg, v, p, ho, tl, sz, fl⟩ := h
  simp only [Header.mk.injEq]
  simp only [Header.magic] at hm
  simp only [Header.version] at hv
  simp only [Header.pageSize] at hp
  simp only [Header.headOffset] at ho1 ho2
  simp only [Header.tailOffset] at ht1 ht2
  simp only [Header.size] at hs1 hs2
  simp only [Header.freeList] at hf1 hf2
  refine ⟨hm.symm, ?_, ?_, ?_, ?_, ?_, ?_⟩
  · have h1 := beVal_be16 hv
    norm_num [be16] at h1
    exact h1
  · have h1 := beVal_be16 hp
    norm_num [be16] at h1
    exact h1
  · have h1 := beVal_be64 (toUInt64_lt ho)
    norm_num [be64] at h1
    rw [h1, toInt64_toUInt64 ho1 ho2]
  · have h1 := beVal_be64 (toUInt64_lt tl)
    norm_num [be64] at h1
    rw [h1, toInt64_toUInt64 ht1 ht2]
  · have h1 := beVal_be64 (toUInt64_lt sz)
    norm_num [be64] at h1
    rw [h1, toInt64_toUInt64 hs1 hs2]
  · have h1 := beVal_be64 (toUInt64_lt fl)
    norm_num [be64] at h1
    rw [h1, toInt64_toUInt64 hf1 hf2]

/-- C3 (counterexample): the claim quantifies over every header value, but a
well-formed header whose magic is not `LLST` does not round-trip —
`readHeader` rejects the bytes that `writeHeader` emitted for it. -/
theorem c3_roundtrip_counterexample :
    badMagicHeader.WF ∧
    readHeaderBytes (writeHeaderBytes badMagicHeader) =
      Except.error ReadError.invalidMagic := by
  constructor
  · decide
  · decide

/-- C3 (amended): for every header whose fields fit their Go types and whose
magic equals the scheme's magic tag, writing with `writeHeader` and reading
the bytes back with `readHeader` succeeds and reproduces every field. -/
theorem c3_header_roundtrip (h : Header) (hwf : h.WF) (hm : h.magic = Magic) :
    readHeaderBytes (writeHeaderBytes h) = Except.ok h :=
  header_roundtrip_aux h hwf hm

/-- C3 (witness): the round-trip theorem applied to the fresh header. -/
theorem c3_header_roundtrip_witness :
    freshHeader.WF ∧ readHeaderBytes (writeHeaderBytes freshHeader) = Except.ok freshHeader :=
  ⟨by decide, c3_header_roundtrip freshHeader (by decide) rfl⟩

/-- C9 (counterexample): the claimed field list — magic, version,
headOffset, tailOffset, size, freeList and no other fields — does not match
the bytes `writeHeader` actually emits (already at the fresh header), and
only fills 38 of the stated 40 bytes: the code also stores PageSize(u16) at
bytes 6..8. -/
theorem c9_layout_counterexample :
    writeHeaderSpecLayout freshHeader ≠ writeHeaderBytes freshHeader ∧
    (writeHeaderSpecLayout freshHeader).length = 38 := by
  constructor
  · decide
  · decide

/-- C9 (amended): the offset-scheme header is exactly 40 bytes, laid out as
magic (4 bytes), version (u16), pageSize (u16), headOffset (i64), tailOffset
(i64), size (i64), freeList (i64), all multi-byte fields big-endian; each
field can be parsed back from exactly those byte positions, which are the
positions `readHeader` uses. -/
theorem c9_header_layout (h : Header) (hwf : h.WF) :
    (writeHeaderBytes h).length = 40 ∧
    slice (writeHeaderBytes h) 0 4 = h.magic ∧
    beVal (slice (writeHeaderBytes h) 4 6) = h.version ∧
    beVal (slice (writeHeaderBytes h) 6 8) = h.pageSize ∧
    toInt64 (beVal (slice (writeHeaderBytes h) 8 16)) = h.headOffset ∧
    toInt64 (beVal (slice (writeHeaderBytes h) 16 24)) = h.tailOffset ∧
    toInt64 (beVal (slice (writeHeaderBytes h) 24 32)) = h.size ∧
    toInt64 (beVal (slice (writeHeaderBytes h) 32 40)) = h.freeList := by
  obtain ⟨hlen, hbytes, hv, hp, ho1, ho2, ht1, ht2, hs1, hs2, hf1, hf2⟩ := hwf
  obtain ⟨a, b, c, d, hm⟩ := magic_shape hlen
  simp only [writeHeaderBytes, hm, be16, be64, List.cons_append, List.nil_append, slice]
  norm_num
  refine ⟨?_, ?_, ?_, ?_, ?_, ?_⟩
  · have h1 := beVal_be16 hv
    norm_num [be16] at h1
    exact h1
  · have h1 := beVal_be16 hp
    norm_num [be16] at h1
    exact h1
  · have h1 := beVal_be64 (toUInt64_lt h.headOffset)
    norm_num [be64] at h1
    rw [h1, toInt64_toUInt64 ho1 ho2]
  · have h1 := beVal_be64 (toUInt64_lt h.tailOffset)
    norm_num [be64] at h1
    rw [h1, toInt64_toUInt64 ht1 ht2]
  · have h1 := beVal_be64 (toUInt64_lt h.size)
    norm_num [be64] at h1
    rw [h1, toInt64_toUInt64 hs1 hs2]
  · have h1 := beVal_be64 (toUInt64_lt h.freeList)
    norm_num [be64] at h1
    rw [h1, toInt64_toUInt64 hf1 hf2]

/-- C9 (witness): the layout theorem applied to the fresh header. -/
theorem c9_header_layout_witness :
    freshHeader.WF ∧
    ((writeHeaderBytes freshHeader).length = 40 ∧
     slice (writeHeaderBytes freshHeader) 0 4 = freshHeader.magic ∧
     beVal (slice (writeHeaderBytes freshHeader) 4 6) = freshHeader.version ∧
     beVal (slice (writeHeaderBytes freshHeader) 6 8) = freshHeader.pageSize ∧
     toInt64 (beVal (slice (writeHeaderBytes freshHeader) 8 16)) = freshHeader.headOffset ∧
     toInt64 (beVal (slice (writeHeaderBytes freshHeader) 16 24)) = freshHeader.tailOffset ∧
     toInt64 (beVal (slice (writeHeaderBytes freshHeader) 24 32)) = freshHeader.size ∧
     toInt64 (beVal (slice (writeHeaderBytes freshHeader) 32 40)) = freshHeader.freeList) :=
  ⟨by decide, c9_header_layout freshHeader (by decide)⟩

/-- C7 (counterexample): a non-empty, non-truncated file whose first four
bytes match the magic but which is shorter than one header makes `Open` fail
with the end-of-file error, not succeed as the claim states for every
magic-matching file. -/
theorem c7_open_counterexample :
    shortFile ≠ [] ∧ slice shortFile 0 4 = Magic ∧
    openList shortFile false = Except.error ReadError.unexpectedEOF := by
  refine ⟨by decide, by decide, by decide⟩

/-- C7 (amended): for every existing file of at least one full 40-byte
header opened without truncate: if its first four bytes differ from the
magic tag, `Open` fails with the invalid-format error; if they match, `Open`
succeeds and returns the header stored in the file. -/
theorem c7_open_validates_magic (c : List Nat) (hlen : 40 ≤ c.length) :
    (slice c 0 4 ≠ Magic → openList c false = Except.error ReadError.invalidMagic) ∧
    (slice c 0 4 = Magic →
      ∃ hdr, readHeaderBytes c = Except.ok hdr ∧ openList c false = Except.ok (hdr, c)) := by
  have h0 : ¬ c.length = 0 := by omega
  have h1 : ¬ c.length < 40 := by omega
  constructor
  · intro hm
    simp [openList, readHeaderBytes, h0, h1, hm, Except.map]
  · intro hm
    have hread : readHeaderBytes c = Except.ok
        { magic := slice c 0 4
          version := beVal (slice c 4 6)
          pageSize := beVal (slice c 6 8)
          headOffset := toInt64 (beVal (slice c 8 16))
          tailOffset := toInt64 (beVal (slice c 16 24))
          size := toInt64 (beVal (slice c 24 32))
          freeList := toInt64 (beVal (slice c 32 40)) } := by
      simp [readHeaderBytes, h1, hm]
    exact ⟨_, hread, by simp [openList, h0, hread, Except.map]⟩

/-- C1 (counterexample): calling `prependHead` with 2, then 1, then 0 — the
call order the claim states — then appending 3, 4, 5 and deleting 3 does
return `found == true`, but the traversal is `[0, 1, 2, 4, 5]`, not the
claimed `[2, 1, 0, 4, 5]`: each prepend puts its value in front, so this
call order builds the list 0, 1, 2. -/
theorem c1_scenario_counterexample :
    c1ClaimedRun = some ([0, 1, 2, 4, 5], true) ∧
    ([0, 1, 2, 4, 5] : List Nat) ≠ [2, 1, 0, 4, 5] := by
  constructor
  · decide
  · decide

/-- C1 (amended): starting from a freshly truncated offset-scheme list,
calling `prependHead` with 0, then 1, then 2 (the order the source's `main`
uses, which builds the list 2, 1, 0), then `appendTail` with 3, 4, 5, then
`deleteFirstByValue 3`, returns `found == true` and the subsequent logical
traversal yields exactly `[2, 1, 0, 4, 5]`. -/
theorem c1_first_match_deletion :
    c1SourceRun = some ([2, 1, 0, 4, 5], true) := by decide

theorem offOf_inj {i j : Nat} (h : offOf i = offOf j) : i = j := by
  unfold offOf at h; omega

theorem offOf_ne_null (i : Nat) : offOf i ≠ NullOffset := by
  unfold offOf NullOffset; omega

theorem readNodeAt_offOf (s : OffState) (i : Nat) :
    readNodeAt s (offOf i) = s.nodes.get? i := by
  unfold readNodeAt offOf
  have h1 : ¬((40 : Int) + 16 * i < 40 ∨ ((40 : Int) + 16 * i - 40) % 16 ≠ 0) := by omega
  rw [if_neg h1]
  have h2 : (((40 : Int) + 16 * i - 40) / 16).toNat = i := by omega
  rw [h2]

theorem readNodeAt_eq_some {s : OffState} {off : Int} {n : Node}
    (h : readNodeAt s off = some n) :
    ∃ i, off = offOf i ∧ s.nodes.get? i = some n := by
  unfold readNodeAt at h
  by_cases hc : off < 40 ∨ (off - 40) % 16 ≠ 0
  · rw [if_pos hc] at h; exact absurd h (by simp)
  · rw [if_neg hc] at h
    refine ⟨((off - 40) / 16).toNat, ?_, h⟩
    unfold offOf
    omega

theorem writeNodeAt_offOf_lt {s : OffState} {i : Nat} (h : i < s.nodes.length) (n : Node) :
    writeNodeAt s (offOf i) n =
      some { s with nodes := s.nodes.set i n, writes := s.writes + 1 } := by
  unfold writeNodeAt offOf
  have h1 : ¬((40 : Int) + 16 * i < 40 ∨ ((40 : Int) + 16 * i - 40) % 16 ≠ 0) := by omega
  rw [if_neg h1]
  have h2 : (((40 : Int) + 16 * i - 40) / 16).toNat = i := by omega
  rw [h2, if_pos h]

theorem writeNodeAt_end (s : OffState) (n : Node) :
    writeNodeAt s (endOff s) n =
      some { s with nodes := s.nodes ++ [n], writes := s.writes + 1 } := by
  unfold writeNodeAt endOff offOf
  have h1 : ¬((40 : Int) + 16 * s.nodes.length < 40 ∨
      ((40 : Int) + 16 * s.nodes.length - 40) % 16 ≠ 0) := by omega
  rw [if_neg h1]
  have h2 : (((40 : Int) + 16 * s.nodes.length - 40) / 16).toNat = s.nodes.length := by
    omega
  rw [h2, if_neg (lt_irrefl _), if_pos rfl]

theorem chainSeg_nil_inv {nodes : List Node} {stop off : Int}
    (h : ChainSeg nodes stop off []) : off = stop := by
  cases h; rfl

theorem chainSeg_cons_inv {nodes : List Node} {stop off : Int} {i : Nat} {l : List Nat}
    (h : ChainSeg nodes stop off (i :: l)) :
    off = offOf i ∧ ∃ n, nodes.get? i = some n ∧ n.tomb = 0 ∧
      ChainSeg nodes stop n.next l := by
  cases h with
  | cons hget hlive hnext => exact ⟨rfl, _, hget, hlive, hnext⟩

theorem chainSeg_mem {nodes : List Node} {stop off : Int} {l : List Nat}
    (h : ChainSeg nodes stop off l) :
    ∀ j ∈ l, ∃ n, nodes.get? j = some n ∧ n.tomb = 0 := by
  induction h with
  | nil => simp
  | cons hget hlive hnext ih =>
    intro j hj
    rcases List.mem_cons.mp hj with rfl | hj
    · exact ⟨_, hget, hlive⟩
    · exact ih j hj

theorem chainSeg_mem_lt {nodes : List Node} {stop off : Int} {l : List Nat}
    (h : ChainSeg nodes stop off l) :
    ∀ j ∈ l, j < nodes.length := by
  intro j hj
  obtain ⟨n, hg, _⟩ := chainSeg_mem h j hj
  obtain ⟨hlt, _⟩ := List.get?_eq_some.mp hg
  exact hlt

theorem chainSeg_extend {nodes : List Node} {stop off : Int} {l : List Nat} (x : Node)
    (h : ChainSeg nodes stop off l) : ChainSeg (nodes ++ [x]) stop off l := by
  induction h with
  | nil => exact ChainSeg.nil
  | cons hget hlive hnext ih =>
    obtain ⟨hlt, _⟩ := List.get?_eq_some.mp hget
    exact ChainSeg.cons (by rw [List.get?_append hlt]; exact hget) hlive ih

theorem chainSeg_set_notMem {nodes : List Node} {stop off : Int} {l : List Nat}
    (j : Nat) (x : Node) (h : ChainSeg nodes stop off l) (hj : j ∉ l) :
    ChainSeg (nodes.set j x) stop off l := by
  induction h with
  | nil => exact ChainSeg.nil
  | cons hget hlive hnext ih =>
    rename_i i n rest
    have hji : j ≠ i := fun he => hj (he ▸ List.mem_cons_self i rest)
    have hjr : j ∉ rest := fun he => hj (List.mem_cons_of_mem _ he)
    exact ChainSeg.cons (by rw [List.get?_set_ne _ _ hji]; exact hget) hlive (ih hjr)

theorem chainSeg_trans {nodes : List Node} {mid stop off : Int} {l1 l2 : List Nat}
    (h1 : ChainSeg nodes mid off l1) (h2 : ChainSeg nodes stop mid l2) :
    ChainSeg nodes stop off (l1 ++ l2) := by
  induction h1 with
  | nil => simpa using h2
  | cons hget hlive hnext ih => exact ChainSeg.cons hget hlive ih

theorem getLast?_mem {l : List Nat} {j : Nat} (h : l.getLast? = some j) : j ∈ l := by
  induction l with
  | nil => simp at h
  | cons a t ih =>
    cases t with
    | nil => simp at h; simp [h]
    | cons b t2 =>
      rw [List.getLast?_cons_cons] at h
      exact List.mem_cons_of_mem _ (ih h)

theorem chainSeg_last_next {nodes : List Node} {stop off : Int} {l : List Nat}
    (h : ChainSeg nodes stop off l) :
    ∀ j, l.getLast? = some j →
      ∃ n, nodes.get? j = some n ∧ n.tomb = 0 ∧ n.next = stop := by
  induction h with
  | nil => intro j hj; simp at hj
  | cons hget hlive hnext ih =>
    rename_i i n rest
    intro j hj
    cases rest with
    | nil =>
      have hij : i = j := by simpa using hj
      subst hij
      exact ⟨n, hget, hlive, chainSeg_nil_inv hnext⟩
    | cons b t =>
      rw [List.getLast?_cons_cons] at hj
      exact ih j hj

theorem chainSeg_retarget {nodes : List Node} {stop stop2 off : Int} {l : List Nat}
    (h : ChainSeg nodes stop off l) (hnd : l.Nodup) {j : Nat}
    (hlast : l.getLast? = some j) :
    ∀ {pn : Node}, nodes.get? j = some pn →
      ChainSeg (nodes.set j { pn with next := stop2 }) stop2 off l := by
  induction h with
  | nil => simp at hlast
  | cons hget hlive hnext ih =>
    rename_i i n rest
    intro pn hpn
    cases rest with
    | nil =>
      have hij : i = j := by simpa using hlast
      subst hij
      have hn : pn = n := by rw [hget] at hpn; exact (Option.some.inj hpn).symm
      subst hn
      obtain ⟨hlt, _⟩ := List.get?_eq_some.mp hget
      refine @ChainSeg.cons _ _ i { pn with next := stop2 } [] ?_ ?_ ?_
      · rw [List.get?_set_eq_of_lt _ hlt]
      · exact hlive
      · exact ChainSeg.nil
    | cons b t =>
      have hlast2 : (b :: t).getLast? = some j := by
        rwa [List.getLast?_cons_cons] at hlast
      have hnd2 : (b :: t).Nodup := (List.nodup_cons.mp hnd).2
      have hmem : j ∈ b :: t := getLast?_mem hlast2
      have hji : j ≠ i := fun he => (List.nodup_cons.mp hnd).1 (he ▸ hmem)
      refine ChainSeg.cons ?_ hlive (ih hnd2 hlast2 hpn)
      rw [List.get?_set_ne _ _ hji]; exact hget

theorem lastOff_nil : lastOff [] = NullOffset := rfl

theorem lastOff_concat (l : List Nat) (i : Nat) : lastOff (l ++ [i]) = offOf i := by
  unfold lastOff
  rw [List.getLast?_concat]

theorem lastOff_append_of_ne_nil (l1 : List Nat) {l2 : List Nat} (h : l2 ≠ []) :
    lastOff (l1 ++ l2) = lastOff l2 := by
  unfold lastOff
  rw [List.getLast?_append_of_ne_nil _ h]

theorem nodup_bounded_length {l : List Nat} {n : Nat} (hnd : l.Nodup)
    (hb : ∀ i ∈ l, i < n) : l.length ≤ n := by
  classical
  have h1 : l.toFinset.card = l.length := List.toFinset_card_of_nodup hnd
  have h2 : l.toFinset ⊆ Finset.range n := by
    intro x hx
    rw [List.mem_toFinset] at hx
    exact Finset.mem_range.mpr (hb x hx)
  have h3 := Finset.card_le_card h2
  rw [Finset.card_range] at h3
  omega

theorem appendTail_empty (s : OffState) (v : Nat) (hh : s.hdr.headOffset = NullOffset) :
    appendTail s v = some
      { hdr :=
          { s.hdr with headOffset := endOff s, tailOffset := endOff s, size := s.hdr.size + 1 },
        nodes := s.nodes ++ [{ value := v, next := NullOffset, tomb := 0 }],
        writes := s.writes + 2 } := by
  simp only [appendTail]
  rw [writeNodeAt_end]
  simp [Option.bind, hh, putHeader]

theorem appendTail_nonempty (s : OffState) (v : Nat) (hh : ¬ s.hdr.headOffset = NullOffset)
    {j : Nat} {tn : Node} (htail : s.hdr.tailOffset = offOf j)
    (hget : s.nodes.get? j = some tn) :
    appendTail s v = some
      { hdr := { s.hdr with tailOffset := endOff s, size := s.hdr.size + 1 },
        nodes := ((s.nodes ++ [Node.mk v NullOffset 0]).set j ({ tn with next := endOff s })),
        writes := s.writes + 3 } := by
  obtain ⟨hlt, _⟩ := List.get?_eq_some.mp hget
  have hread : readNodeAt (OffState.mk s.hdr
      (s.nodes ++ [Node.mk v NullOffset 0]) (s.writes + 1)) (offOf j) = some tn := by
    rw [readNodeAt_offOf]
    show (s.nodes ++ _).get? j = some tn
    rw [List.get?_append hlt]
    exact hget
  have hj2 : j < (OffState.mk s.hdr
      (s.nodes ++ [Node.mk v NullOffset 0])
      (s.writes + 1)).nodes.length := by
    simp
    omega
  have hwrite := writeNodeAt_offOf_lt hj2 ({ tn with next := endOff s })
  simp [appendTail, writeNodeAt_end, Option.bind, putHeader, hh, htail, hread, hwrite]

theorem prependHead_eq (s : OffState) (v : Nat) :
    prependHead s v = some
      { hdr :=
          { s.hdr with
              headOffset := endOff s
              tailOffset :=
                if s.hdr.headOffset = NullOffset then endOff s else s.hdr.tailOffset
              size := s.hdr.size + 1 },
        nodes := s.nodes ++ [{ value := v, next := s.hdr.headOffset, tomb := 0 }],
        writes := s.writes + 2 } := by
  simp only [prependHead]
  rw [writeNodeAt_end]
  by_cases hh : s.hdr.headOffset = NullOffset
  · simp [Option.bind, hh, putHeader]
  · simp [Option.bind, hh, putHeader]

/-- Helper: `appendTail` keeps the invariant, always succeeds on an invariant
state, and adds one to `Size` and one record. -/
theorem appendTail_inv {s : OffState} (hinv : Inv s) (v : Nat) :
    ∃ s', appendTail s v = some s' ∧ Inv s' ∧
      s'.hdr.size = s.hdr.size + 1 := by
  obtain ⟨l, hc, hnd, htail, hsize⟩ := hinv
  by_cases hh : s.hdr.headOffset = NullOffset
  · have hl : l = [] := by
      cases l with
      | nil => rfl
      | cons i rest =>
        obtain ⟨hoff, _⟩ := chainSeg_cons_inv hc
        rw [hh] at hoff
        exact absurd hoff.symm (offOf_ne_null i)
    subst hl
    refine ⟨_, appendTail_empty s v hh, ?_, rfl⟩
    refine ⟨[s.nodes.length], ?_, by simp, ?_, ?_⟩
    · exact ChainSeg.cons (List.get?_concat_length _ _) rfl ChainSeg.nil
    · show endOff s = lastOff [s.nodes.length]
      rfl
    · simp at hsize ⊢
      omega
  · -- non-empty: splice the old tail to the new end-of-file record
    have hlne : l ≠ [] := by
      intro he
      exact hh (by rw [he] at hc; exact chainSeg_nil_inv hc)
    obtain ⟨j, hj⟩ : ∃ j, l.getLast? = some j := by
      cases hq : l.getLast? with
      | none => exact absurd (List.getLast?_eq_none_iff.mp hq) hlne
      | some j => exact ⟨j, rfl⟩
    obtain ⟨tn, hget, htomb, hnext⟩ := chainSeg_last_next hc j hj
    have htail2 : s.hdr.tailOffset = offOf j := by
      rw [htail]; unfold lastOff; rw [hj]
    refine ⟨_, appendTail_nonempty s v hh htail2 hget, ?_, rfl⟩
    have hMnotl : s.nodes.length ∉ l := fun hm =>
      absurd (chainSeg_mem_lt hc _ hm) (lt_irrefl _)
    refine ⟨l ++ [s.nodes.length], ?_, ?_, ?_, ?_⟩
    · -- the chain: old chain retargeted onto the new record, then the new record
      have h1 : ChainSeg (s.nodes ++ [Node.mk v NullOffset 0])
          NullOffset s.hdr.headOffset l := chainSeg_extend _ hc
      obtain ⟨hlt, _⟩ := List.get?_eq_some.mp hget
      have hget2 : (s.nodes ++ [Node.mk v NullOffset 0]).get? j
          = some tn := by rw [List.get?_append hlt]; exact hget
      have h2 : ChainSeg ((s.nodes ++ [Node.mk v NullOffset 0]).set j
          ({ tn with next := endOff s })) (endOff s) s.hdr.headOffset l :=
        chainSeg_retarget h1 hnd hj hget2
      have h3 : ChainSeg ((s.nodes ++ [Node.mk v NullOffset 0]).set j
          ({ tn with next := endOff s })) NullOffset (endOff s) [s.nodes.length] := by
        have hji : j ≠ s.nodes.length := by omega
        refine @ChainSeg.cons _ _ s.nodes.length (Node.mk v NullOffset 0) [] ?_ rfl
          ChainSeg.nil
        rw [List.get?_set_ne _ _ hji]
        exact List.get?_concat_length _ _
      have h4 := chainSeg_trans h2 h3
      exact h4
    · simp only [List.nodup_append, List.nodup_cons, List.nodup_nil]
      exact ⟨hnd, by simp, by simpa using hMnotl⟩
    · show _ = lastOff (l ++ [s.nodes.length])
      rw [lastOff_concat]
      rfl
    · simp at hsize ⊢
      omega

/-- Helper: `prependHead` keeps the invariant, always succeeds, and adds one
to `Size` and one record. -/
theorem prependHead_inv {s : OffState} (hinv : Inv s) (v : Nat) :
    ∃ s', prependHead s v = some s' ∧ Inv s' ∧
      s'.hdr.size = s.hdr.size + 1 := by
  obtain ⟨l, hc, hnd, htail, hsize⟩ := hinv
  refine ⟨_, prependHead_eq s v, ?_, rfl⟩
  have hMnotl : s.nodes.length ∉ l := fun hm =>
    absurd (chainSeg_mem_lt hc _ hm) (lt_irrefl _)
  refine ⟨s.nodes.length :: l, ?_, ?_, ?_, ?_⟩
  · refine ChainSeg.cons (List.get?_concat_length _ _) rfl ?_
    exact chainSeg_extend _ hc
  · exact List.nodup_cons.mpr ⟨hMnotl, hnd⟩
  · by_cases hh : s.hdr.headOffset = NullOffset
    · have hl : l = [] := by
        cases l with
        | nil => rfl
        | cons i rest =>
          obtain ⟨hoff, _⟩ := chainSeg_cons_inv hc
          rw [hh] at hoff
          exact absurd hoff.symm (offOf_ne_null i)
      subst hl
      show (if s.hdr.headOffset = NullOffset then endOff s else s.hdr.tailOffset)
        = lastOff [s.nodes.length]
      rw [if_pos hh]
      rfl
    · have hl : l ≠ [] := by
        intro he
        exact hh (by rw [he] at hc; exact chainSeg_nil_inv hc)
      show (if s.hdr.headOffset = NullOffset then endOff s else s.hdr.tailOffset)
        = lastOff (s.nodes.length :: l)
      rw [if_neg hh, htail]
      unfold lastOff
      cases l with
      | nil => exact absurd rfl hl
      | cons b t => rw [List.getLast?_cons_cons]
  · simp at hsize ⊢
    omega

/-- Helper: traversal of an invariant chain succeeds and yields one value
per chain record (every chain record is live, none is filtered out). -/
theorem traverseLoop_chain {s : OffState} :
    ∀ (l : List Nat) (off : Int) (fuel : Nat),
      ChainSeg s.nodes NullOffset off l → l.length < fuel →
      ∃ vs, traverseLoop s off fuel = some vs ∧ vs.length = l.length := by
  intro l
  induction l with
  | nil =>
    intro off fuel hc hf
    have hoff := chainSeg_nil_inv hc
    cases fuel with
    | zero => omega
    | succ f =>
      refine ⟨[], ?_, rfl⟩
      simp [traverseLoop, hoff]
  | cons i rest ih =>
    intro off fuel hc hf
    obtain ⟨hoff, n, hget, hlive, hnext⟩ := chainSeg_cons_inv hc
    cases fuel with
    | zero => omega
    | succ f =>
      obtain ⟨vs, hrun, hlen⟩ := ih n.next f hnext (by simp at hf ⊢; omega)
      subst hoff
      refine ⟨n.value :: vs, ?_, by simp [hlen]⟩
      have hrd : readNodeAt s (offOf i) = some n := by
        rw [readNodeAt_offOf]; exact hget
      simp [traverseLoop, offOf_ne_null i, hrd, hrun, hlive]

/-- Helper: an invariant state's traversal succeeds and its length equals
the header's `Size`. -/
theorem traverseValues_inv {s : OffState} (hinv : Inv s) :
    ∃ vs, traverseValues s = some vs ∧ (vs.length : Int) = s.hdr.size := by
  obtain ⟨l, hc, hnd, htail, hsize⟩ := hinv
  have hlen : l.length ≤ s.nodes.length :=
    nodup_bounded_length hnd (chainSeg_mem_lt hc)
  obtain ⟨vs, hrun, hvs⟩ :=
    traverseLoop_chain l s.hdr.headOffset (s.nodes.length + 1) hc (by omega)
  refine ⟨vs, hrun, ?_⟩
  rw [hvs, hsize]

/-- Helper: one evaluation step of the delete scan when the cursor record is
the first live match and the predecessor is the null offset (head case). -/
theorem deleteLoop_eq_match_head (s : OffState) (v : Nat) (i : Nat) (n : Node) (f : Nat)
    (hget : s.nodes.get? i = some n) (hv : n.value = v) (hlive : n.tomb = 0) :
    deleteLoop s v NullOffset (offOf i) (f + 1) =
      some (putHeader
        (OffState.mk s.hdr
          (s.nodes.set i ({ n with next := s.hdr.freeList, tomb := 1 }))
          (s.writes + 1))
        (Header.sizeDec
          (if n.next = NullOffset
           then { s.hdr with freeList := offOf i, headOffset := n.next, tailOffset := NullOffset }
           else { s.hdr with freeList := offOf i, headOffset := n.next })), true) := by
  obtain ⟨hilt, _⟩ := List.get?_eq_some.mp hget
  have hw1 := writeNodeAt_offOf_lt hilt ({ n with next := s.hdr.freeList, tomb := 1 })
  have hrd : readNodeAt s (offOf i) = some n := by
    rw [readNodeAt_offOf]; exact hget
  have hcond : (n.value = v ∧ n.tomb = 0) = True := by simp [hv, hlive]
  by_cases hnn : n.next = NullOffset <;>
    simp [deleteLoop, offOf_ne_null i, hrd, hcond, hw1, Header.sizeDec, hnn]

/-- Helper: one evaluation step of the delete scan when the cursor record is
the first live match and the predecessor sits at record `j` (splice case). -/
theorem deleteLoop_eq_match_prev (s : OffState) (v : Nat) (i j : Nat) (n pn : Node)
    (f : Nat) (hget : s.nodes.get? i = some n) (hv : n.value = v) (hlive : n.tomb = 0)
    (hij : i ≠ j)
    (hpget : s.nodes.get? j = some pn) :
    deleteLoop s v (offOf j) (offOf i) (f + 1) =
      some (putHeader
        (OffState.mk s.hdr
          ((s.nodes.set i ({ n with next := s.hdr.freeList, tomb := 1 })).set j
            ({ pn with next := n.next }))
          (s.writes + 2))
        (Header.sizeDec
          (if offOf i = s.hdr.tailOffset
           then { s.hdr with freeList := offOf i, tailOffset := offOf j }
           else { s.hdr with freeList := offOf i })), true) := by
  obtain ⟨hilt, _⟩ := List.get?_eq_some.mp hget
  obtain ⟨hjlt, _⟩ := List.get?_eq_some.mp hpget
  have hw1 := writeNodeAt_offOf_lt hilt ({ n with next := s.hdr.freeList, tomb := 1 })
  have hrd : readNodeAt s (offOf i) = some n := by
    rw [readNodeAt_offOf]; exact hget
  have hread2 : readNodeAt (OffState.mk s.hdr
      (s.nodes.set i ({ n with next := s.hdr.freeList, tomb := 1 }))
      (s.writes + 1)) (offOf j) = some pn := by
    rw [readNodeAt_offOf]
    show (s.nodes.set i _).get? j = some pn
    rw [List.get?_set_ne _ _ hij]
    exact hpget
  have hjlt2 : j < (OffState.mk s.hdr
      (s.nodes.set i ({ n with next := s.hdr.freeList, tomb := 1 }))
      (s.writes + 1)).nodes.length := by
    simp
    omega
  have hw2 := writeNodeAt_offOf_lt hjlt2 ({ pn with next := n.next })
  have hcond : (n.value = v ∧ n.tomb = 0) = True := by simp [hv, hlive]
  by_cases htc : offOf i = s.hdr.tailOffset
  · simp [deleteLoop, offOf_ne_null i, offOf_ne_null j, hrd, hcond,
      hw1, hread2, hw2, Header.sizeDec, htc.symm]
  · simp [deleteLoop, offOf_ne_null i, offOf_ne_null j, hrd, hcond,
      hw1, hread2, hw2, Header.sizeDec, htc]

/-- Helper: one evaluation step of the delete scan past a non-matching
record. -/
theorem deleteLoop_eq_skip (s : OffState) (v : Nat) (i : Nat) (n : Node)
    (prevOff : Int) (f : Nat) (hget : s.nodes.get? i = some n)
    (hv : ¬ (n.value = v ∧ n.tomb = 0)) :
    deleteLoop s v prevOff (offOf i) (f + 1) = deleteLoop s v (offOf i) n.next f := by
  have hrd : readNodeAt s (offOf i) = some n := by
    rw [readNodeAt_offOf]; exact hget
  simp [deleteLoop, offOf_ne_null i, hrd, hv]

/-- Helper: full specification of the `deleteFirstByValue` scan loop on an
invariant state.  `pre` is the already-visited chain segment (whose last
record is the predecessor `prevOff`), `suf` the chain from the cursor `off`.
Either no record of `suf` carries the value and the state is returned
untouched with `found == false`, or the first match is tombstoned and
spliced out, giving an invariant state with `Size` one less and the free
list now heading at the deleted record. -/
theorem deleteLoop_spec (v : Nat) :
    ∀ (suf : List Nat) (fuel : Nat) (s : OffState) (pre : List Nat) (off prevOff : Int),
      ChainSeg s.nodes off s.hdr.headOffset pre →
      ChainSeg s.nodes NullOffset off suf →
      (pre ++ suf).Nodup →
      s.hdr.tailOffset = lastOff (pre ++ suf) →
      s.hdr.size = ((pre ++ suf).length : Int) →
      (pre = [] → prevOff = NullOffset) →
      (∀ j, pre.getLast? = some j → prevOff = offOf j) →
      suf.length < fuel →
      ∃ r : OffState × Bool, deleteLoop s v prevOff off fuel = some r ∧
        ((r = (s, false) ∧
            ∀ j ∈ suf, ∀ n, s.nodes.get? j = some n → n.value ≠ v) ∨
         (r.2 = true ∧ Inv r.1 ∧ r.1.hdr.size = s.hdr.size - 1 ∧
            ∃ i n, i ∈ suf ∧ s.nodes.get? i = some n ∧ n.value = v ∧ n.tomb = 0 ∧
              r.1.hdr.freeList = offOf i ∧
              r.1.nodes.get? i = some { n with next := s.hdr.freeList, tomb := 1 })) := by
  intro suf
  induction suf with
  | nil =>
    intro fuel s pre off prevOff hpre hsuf hnd htail hsize hp1 hp2 hf
    have hoff := chainSeg_nil_inv hsuf
    cases fuel with
    | zero => omega
    | succ f =>
      refine ⟨(s, false), ?_, Or.inl ⟨rfl, by simp⟩⟩
      simp [deleteLoop, hoff]
  | cons i rest ih =>
    intro fuel s pre off prevOff hpre hsuf hnd htail hsize hp1 hp2 hf
    obtain ⟨hoff, n, hget, hlive, hnext⟩ := chainSeg_cons_inv hsuf
    obtain ⟨hilt, _⟩ := List.get?_eq_some.mp hget
    cases fuel with
    | zero => simp at hf
    | succ f =>
      subst hoff
      by_cases hv : n.value = v
      case neg =>
        -- skip this record and recurse
        have hstep := deleteLoop_eq_skip s v i n prevOff f hget (by simp [hv])
        have hpre2 : ChainSeg s.nodes n.next s.hdr.headOffset (pre ++ [i]) :=
          chainSeg_trans hpre (ChainSeg.cons hget hlive ChainSeg.nil)
        have hnd2 : ((pre ++ [i]) ++ rest).Nodup := by
          rw [List.append_assoc]
          simpa using hnd
        have htail2 : s.hdr.tailOffset = lastOff ((pre ++ [i]) ++ rest) := by
          rw [List.append_assoc]
          simpa using htail
        have hsize2 : s.hdr.size = (((pre ++ [i]) ++ rest).length : Int) := by
          rw [List.append_assoc]
          simpa using hsize
        have hp1' : pre ++ [i] = [] → (offOf i : Int) = NullOffset := by
          intro he
          exact absurd he (by simp)
        have hp2' : ∀ j2, (pre ++ [i]).getLast? = some j2 → (offOf i : Int) = offOf j2 := by
          intro j2 hj2
          rw [List.getLast?_concat] at hj2
          rw [Option.some.inj hj2]
        obtain ⟨r, hrun, hres⟩ := ih f s (pre ++ [i]) n.next (offOf i)
          hpre2 hnext hnd2 htail2 hsize2 hp1' hp2' (by simp at hf ⊢; omega)
        refine ⟨r, by rw [hstep]; exact hrun, ?_⟩
        rcases hres with ⟨hreq, hmiss⟩ | hfound
        · refine Or.inl ⟨hreq, ?_⟩
          intro j2 hj2 m hm
          rcases List.mem_cons.mp hj2 with rfl | hj3
          · rw [hget] at hm
            rw [← Option.some.inj hm]
            exact hv
          · exact hmiss j2 hj3 m hm
        · obtain ⟨hr2, hinv, hsz, i2, n2, hmem, hrest⟩ := hfound
          exact Or.inr ⟨hr2, hinv, hsz, i2, n2, List.mem_cons_of_mem _ hmem, hrest⟩
      case pos =>
        -- the first live match: tombstone, splice, decrement, commit
        have hpos : (0 : Int) < s.hdr.size := by
          rw [hsize]
          simp
          omega
        have hinotrest : i ∉ rest := by
          have := List.nodup_append.mp hnd
          have h2 := List.nodup_cons.mp this.2.1
          exact h2.1
        by_cases hpe : pre = []
        case pos =>
          subst hpe
          have hprev : prevOff = NullOffset := hp1 rfl
          have hhead : s.hdr.headOffset = offOf i := chainSeg_nil_inv hpre
          subst hprev
          have heq := deleteLoop_eq_match_head s v i n f hget hv hlive
          refine ⟨_, heq, Or.inr ⟨rfl, ?_, ?_, ?_⟩⟩
          · -- invariant of the spliced state, chain `rest`
            refine ⟨rest, ?_, ?_, ?_, ?_⟩
            · show ChainSeg (s.nodes.set i _) NullOffset (Header.sizeDec _).headOffset rest
              have hch : ChainSeg (s.nodes.set i
                  ({ n with next := s.hdr.freeList, tomb := 1 })) NullOffset n.next rest :=
                chainSeg_set_notMem i _ hnext hinotrest
              by_cases hnn : n.next = NullOffset <;>
                simpa [Header.sizeDec, hnn, hpos, putHeader] using hch
            · exact (List.nodup_cons.mp (by simpa using hnd)).2
            · show (Header.sizeDec _).tailOffset = lastOff rest
              cases rest with
              | nil =>
                have hnn : n.next = NullOffset := chainSeg_nil_inv hnext
                simp [Header.sizeDec, hnn, hpos, lastOff, putHeader]
              | cons r0 t =>
                obtain ⟨hoff0, _⟩ := chainSeg_cons_inv hnext
                have hnn : ¬ n.next = NullOffset := by
                  rw [hoff0]; exact offOf_ne_null r0
                have htl : s.hdr.tailOffset = lastOff (r0 :: t) := by
                  rw [htail]
                  show lastOff ([i] ++ r0 :: t) = _
                  rw [lastOff_append_of_ne_nil _ (by simp)]
                simp [Header.sizeDec, hnn, hpos, htl, putHeader]
            · show (Header.sizeDec _).size = (rest.length : Int)
              simp at hsize
              by_cases hnn : n.next = NullOffset <;>
                simp [Header.sizeDec, hnn, hpos, putHeader] <;> omega
          · show (Header.sizeDec _).size = s.hdr.size - 1
            by_cases hnn : n.next = NullOffset <;>
              simp [Header.sizeDec, hnn, hpos, putHeader]
          · refine ⟨i, n, by simp, hget, hv, hlive, ?_, ?_⟩
            · by_cases hnn : n.next = NullOffset <;>
                simp [Header.sizeDec, hnn, hpos, putHeader]
            · show (s.nodes.set i _).get? i = _
              rw [List.get?_set_eq_of_lt _ hilt]
        case neg =>
          -- match deeper in the list: rewrite the predecessor
          obtain ⟨j, hjlast⟩ : ∃ j, pre.getLast? = some j := by
            cases hq : pre.getLast? with
            | none => exact absurd (List.getLast?_eq_none_iff.mp hq) hpe
            | some j => exact ⟨j, rfl⟩
          have hprev : prevOff = offOf j := hp2 j hjlast
          subst hprev
          obtain ⟨pn, hpget, hptomb, hpnext⟩ := chainSeg_last_next hpre j hjlast
          obtain ⟨hndpre, hndsuf, hdisj⟩ := List.nodup_append.mp hnd
          have hjmem : j ∈ pre := getLast?_mem hjlast
          have hij : i ≠ j := fun he => hdisj hjmem (by rw [he]; simp) |>.elim
          have hinotpre : i ∉ pre := fun hm => (hdisj hm (by simp)).elim
          have hjnotrest : j ∉ rest := fun hm =>
            (hdisj hjmem (List.mem_cons_of_mem _ hm)).elim
          have heq := deleteLoop_eq_match_prev s v i j n pn f hget hv hlive hij hpget
          refine ⟨_, heq, Or.inr ⟨rfl, ?_, ?_, ?_⟩⟩
          · -- invariant of the spliced state, chain `pre ++ rest`
            have hpre_set : ChainSeg (s.nodes.set i
                ({ n with next := s.hdr.freeList, tomb := 1 })) (offOf i)
                s.hdr.headOffset pre :=
              chainSeg_set_notMem i _ hpre hinotpre
            have hpget2 : (s.nodes.set i
                ({ n with next := s.hdr.freeList, tomb := 1 })).get? j = some pn := by
              rw [List.get?_set_ne _ _ hij]
              exact hpget
            have hpre_ret : ChainSeg ((s.nodes.set i
                ({ n with next := s.hdr.freeList, tomb := 1 })).set j
                ({ pn with next := n.next })) n.next s.hdr.headOffset pre :=
              chainSeg_retarget hpre_set hndpre hjlast hpget2
            have hrest2 : ChainSeg ((s.nodes.set i
                ({ n with next := s.hdr.freeList, tomb := 1 })).set j
                ({ pn with next := n.next })) NullOffset n.next rest :=
              chainSeg_set_notMem j _ (chainSeg_set_notMem i _ hnext hinotrest) hjnotrest
            have hch := chainSeg_trans hpre_ret hrest2
            refine ⟨pre ++ rest, ?_, ?_, ?_, ?_⟩
            · show ChainSeg _ NullOffset (Header.sizeDec _).headOffset (pre ++ rest)
              by_cases htc : offOf i = s.hdr.tailOffset <;>
                simpa [Header.sizeDec, htc, hpos, putHeader] using hch
            · exact List.nodup_append.mpr ⟨hndpre, (List.nodup_cons.mp hndsuf).2,
                fun a ha hb => hdisj ha (List.mem_cons_of_mem _ hb)⟩
            · show (Header.sizeDec _).tailOffset = lastOff (pre ++ rest)
              cases rest with
              | nil =>
                have htc : offOf i = s.hdr.tailOffset := by
                  rw [htail, lastOff_concat]
                have hlast2 : lastOff pre = offOf j := by
                  unfold lastOff
                  rw [hjlast]
                rw [if_pos htc]
                simp [Header.sizeDec, hpos, putHeader, hlast2]
              | cons r0 t =>
                obtain ⟨jr, hjr⟩ : ∃ jr, (r0 :: t).getLast? = some jr := by
                  cases hq : (r0 :: t).getLast? with
                  | none => exact absurd (List.getLast?_eq_none_iff.mp hq) (by simp)
                  | some jr => exact ⟨jr, rfl⟩
                have hjrmem : jr ∈ r0 :: t := getLast?_mem hjr
                have hijr : i ≠ jr := fun he =>
                  hinotrest (by rw [he]; exact hjrmem)
                have htl : s.hdr.tailOffset = offOf jr := by
                  rw [htail, lastOff_append_of_ne_nil _ (by simp)]
                  show lastOff ([i] ++ r0 :: t) = _
                  rw [lastOff_append_of_ne_nil _ (by simp)]
                  unfold lastOff
                  rw [hjr]
                have htc : ¬ offOf i = s.hdr.tailOffset := by
                  rw [htl]
                  intro he
                  exact hijr (offOf_inj he)
                have hlast2 : lastOff (pre ++ r0 :: t) = offOf jr := by
                  rw [lastOff_append_of_ne_nil _ (by simp)]
                  unfold lastOff
                  rw [hjr]
                rw [if_neg htc]
                simp [Header.sizeDec, hpos, putHeader]
                rw [htl, hlast2]
            · show (Header.sizeDec _).size = ((pre ++ rest).length : Int)
              simp at hsize
              by_cases htc : offOf i = s.hdr.tailOffset <;>
                simp [Header.sizeDec, htc, hpos, putHeader] <;> omega
          · show (Header.sizeDec _).size = s.hdr.size - 1
            by_cases htc : offOf i = s.hdr.tailOffset <;>
              simp [Header.sizeDec, htc, hpos, putHeader]
          · refine ⟨i, n, by simp, hget, hv, hlive, ?_, ?_⟩
            · by_cases htc : offOf i = s.hdr.tailOffset <;>
                simp [Header.sizeDec, htc, hpos, putHeader]
            · show ((s.nodes.set i _).set j _).get? i = _
              rw [List.get?_set_ne _ _ (Ne.symm hij), List.get?_set_eq_of_lt _ hilt]

theorem writeNodeAt_eq_some {s : OffState} {off : Int} {n : Node} {s' : OffState}
    (h : writeNodeAt s off n = some s') :
    ∃ i, off = offOf i ∧ s'.hdr = s.hdr ∧ s'.writes = s.writes + 1 ∧
      ((i < s.nodes.length ∧ s'.nodes = s.nodes.set i n) ∨
       (i = s.nodes.length ∧ s'.nodes = s.nodes ++ [n])) := by
  unfold writeNodeAt at h
  by_cases hc : off < 40 ∨ (off - 40) % 16 ≠ 0
  · rw [if_pos hc] at h
    exact absurd h (by simp)
  · rw [if_neg hc] at h
    refine ⟨((off - 40) / 16).toNat, by unfold offOf; omega, ?_⟩
    by_cases h1 : ((off - 40) / 16).toNat < s.nodes.length
    · rw [if_pos h1] at h
      obtain rfl := Option.some.inj h
      exact ⟨rfl, rfl, Or.inl ⟨h1, rfl⟩⟩
    · rw [if_neg h1] at h
      by_cases h2 : ((off - 40) / 16).toNat = s.nodes.length
      · rw [if_pos h2] at h
        obtain rfl := Option.some.inj h
        exact ⟨rfl, rfl, Or.inr ⟨h2, rfl⟩⟩
      · rw [if_neg h2] at h
        exact absurd h (by simp)

theorem inv_size_nonneg {s : OffState} (hinv : Inv s) : 0 ≤ s.hdr.size := by
  obtain ⟨l, _, _, _, hsize⟩ := hinv
  rw [hsize]
  omega

/-- Helper: `deleteFirstByValue` on an invariant state succeeds, keeps the
invariant, and decrements `Size` exactly when it reports a deletion. -/
theorem deleteFirstByValue_inv {s : OffState} (hinv : Inv s) (v : Nat) :
    ∃ s' found, deleteFirstByValue s v = some (s', found) ∧ Inv s' ∧
      s'.hdr.size = s.hdr.size - (if found then 1 else 0) := by
  obtain ⟨l, hc, hnd, htail, hsize⟩ := hinv
  unfold deleteFirstByValue
  by_cases hh : s.hdr.headOffset = NullOffset
  · rw [if_pos hh]
    exact ⟨s, false, rfl, ⟨l, hc, hnd, htail, hsize⟩, by simp⟩
  · rw [if_neg hh]
    have hlen : l.length ≤ s.nodes.length :=
      nodup_bounded_length hnd (chainSeg_mem_lt hc)
    obtain ⟨r, hrun, hres⟩ := deleteLoop_spec v l (s.nodes.length + 1) s []
      s.hdr.headOffset NullOffset ChainSeg.nil hc (by simpa using hnd)
      (by simpa using htail) (by simpa using hsize) (fun _ => rfl)
      (by intro j hj; simp at hj) (by omega)
    rcases hres with ⟨hreq, _⟩ | ⟨hr2, hinv2, hsz, _⟩
    · refine ⟨r.1, r.2, by simpa using hrun, ?_, ?_⟩
      · rw [hreq]
        exact ⟨l, hc, hnd, htail, hsize⟩
      · rw [hreq]
        simp
    · refine ⟨r.1, r.2, by simpa using hrun, hinv2, ?_⟩
      rw [hr2]
      simpa using hsz

/-- Helper: every operation sequence runs to completion from an invariant
state, preserving the invariant; the final `Size` is the starting `Size`
plus inserts minus successful deletes. -/
theorem runOps_inv : ∀ (ops : List Op) (s : OffState), Inv s →
    ∃ s' d, runOps s ops = some (s', d) ∧ Inv s' ∧
      s'.hdr.size = s.hdr.size + (inserts ops : Int) - d := by
  intro ops
  induction ops with
  | nil =>
    intro s hinv
    exact ⟨s, 0, rfl, hinv, by simp [inserts]⟩
  | cons op rest ih =>
    intro s hinv
    cases op with
    | append v =>
      obtain ⟨s1, h1, hinv1, hsz1⟩ := appendTail_inv hinv v
      obtain ⟨s', d, hrun, hinv', hsz'⟩ := ih s1 hinv1
      refine ⟨s', d, ?_, hinv', ?_⟩
      · simp [runOps, h1, hrun]
      · rw [hsz', hsz1]
        simp [inserts]
        push_cast
        ring
    | prepend v =>
      obtain ⟨s1, h1, hinv1, hsz1⟩ := prependHead_inv hinv v
      obtain ⟨s', d, hrun, hinv', hsz'⟩ := ih s1 hinv1
      refine ⟨s', d, ?_, hinv', ?_⟩
      · simp [runOps, h1, hrun]
      · rw [hsz', hsz1]
        simp [inserts]
        push_cast
        ring
    | delete v =>
      obtain ⟨s1, found, h1, hinv1, hsz1⟩ := deleteFirstByValue_inv hinv v
      obtain ⟨s', d, hrun, hinv', hsz'⟩ := ih s1 hinv1
      refine ⟨s', d + if found then 1 else 0, ?_, hinv', ?_⟩
      · simp [runOps, h1, hrun]
      · rw [hsz', hsz1]
        simp [inserts]
        cases found <;> simp <;> push_cast <;> ring

/-- C2: for every sequence of operations from a freshly truncated list
(this also covers every intermediate state, since the sequence is
arbitrary), the run succeeds, the number `d` of deletes that returned
`found == true` satisfies `d ≤ N` for `N` the number of inserts, the
header's `Size` equals `N - d`, and the logical traversal succeeds with
exactly `Size` values — the traversal filters on `tomb == 0`, so its length
is the number of live records reachable from the head. -/
theorem c2_size_invariant (ops : List Op) :
    ∃ s d, runOps freshState ops = some (s, d) ∧
      d ≤ inserts ops ∧
      s.hdr.size = (inserts ops : Int) - d ∧
      ∃ vs, traverseValues s = some vs ∧ (vs.length : Int) = s.hdr.size := by
  have hfresh : Inv freshState :=
    ⟨[], ChainSeg.nil, List.nodup_nil, rfl, by simp [freshState, freshHeader]⟩
  obtain ⟨s, d, hrun, hinv, hsz⟩ := runOps_inv ops freshState hfresh
  have hnn := inv_size_nonneg hinv
  have h0 : freshState.hdr.size = 0 := rfl
  rw [h0] at hsz
  refine ⟨s, d, hrun, by omega, by omega, traverseValues_inv hinv⟩

/-- C2 (witness): the invariant theorem applied to the source's own
operation sequence — three prepends, three appends, one delete. -/
theorem c2_size_invariant_witness :
    ∃ s d, runOps freshState
        [Op.prepend 0, Op.prepend 1, Op.prepend 2,
         Op.append 3, Op.append 4, Op.append 5, Op.delete 3] = some (s, d) ∧
      d ≤ inserts [Op.prepend 0, Op.prepend 1, Op.prepend 2,
         Op.append 3, Op.append 4, Op.append 5, Op.delete 3] ∧
      s.hdr.size = (inserts [Op.prepend 0, Op.prepend 1, Op.prepend 2,
         Op.append 3, Op.append 4, Op.append 5, Op.delete 3] : Int) - d ∧
      ∃ vs, traverseValues s = some vs ∧ (vs.length : Int) = s.hdr.size :=
  c2_size_invariant [Op.prepend 0, Op.prepend 1, Op.prepend 2,
    Op.append 3, Op.append 4, Op.append 5, Op.delete 3]

/-- C6: on every list state whose live chain (the records reachable from the
head, all with `tomb == 0`) holds no record with the given value — the empty
list included — `deleteFirstByValue` returns `found == false` with no error
and returns the state bit-for-bit unchanged: no node or header write happens
(the write counter is unchanged), and header fields and traversal are
untouched. -/
theorem c6_delete_miss_noop (s : OffState) (l : List Nat) (v : Nat)
    (hc : ChainSeg s.nodes NullOffset s.hdr.headOffset l) (hnd : l.Nodup)
    (htail : s.hdr.tailOffset = lastOff l) (hsize : s.hdr.size = (l.length : Int))
    (hmiss : ∀ j ∈ l, ∀ n, s.nodes.get? j = some n → n.value ≠ v) :
    deleteFirstByValue s v = some (s, false) := by
  unfold deleteFirstByValue
  by_cases hh : s.hdr.headOffset = NullOffset
  · rw [if_pos hh]
  · rw [if_neg hh]
    have hlen : l.length ≤ s.nodes.length :=
      nodup_bounded_length hnd (chainSeg_mem_lt hc)
    obtain ⟨r, hrun, hres⟩ := deleteLoop_spec v l (s.nodes.length + 1) s []
      s.hdr.headOffset NullOffset ChainSeg.nil hc (by simpa using hnd)
      (by simpa using htail) (by simpa using hsize) (fun _ => rfl)
      (by intro j hj; simp at hj) (by omega)
    rcases hres with ⟨hreq, _⟩ | ⟨_, _, _, i, n, hmem, hget, hval, htomb, _⟩
    · rw [hrun, hreq]
    · exact absurd hval (hmiss i hmem n hget)

/-- C6 (witness): the delete-miss theorem applied to a one-record list whose
only live value is 5, deleting the absent value 7. -/
theorem c6_delete_miss_noop_witness :
    deleteFirstByValue c6WitnessState 7 = some (c6WitnessState, false) :=
  c6_delete_miss_noop c6WitnessState [0] 7
    (ChainSeg.cons rfl rfl ChainSeg.nil) (by decide) (by decide) (by decide)
    (by
      intro j hj n hg
      simp at hj
      subst hj
      have hn : n = Node.mk 5 NullOffset 0 := by
        have := hg
        simp [c6WitnessState] at this
        rw [← this]
      rw [hn]
      decide)

/-- Helper: the non-empty `appendTail` step, with the tail record read from
the file as it stands after the end-of-file write. -/
theorem appendTail_nonempty_any (s : OffState) (v : Nat)
    (hh : ¬ s.hdr.headOffset = NullOffset) (j : Nat) (tn : Node)
    (htail : s.hdr.tailOffset = offOf j)
    (hget : (s.nodes ++ [Node.mk v NullOffset 0]).get? j = some tn) :
    appendTail s v = some
      { hdr := { s.hdr with tailOffset := endOff s, size := s.hdr.size + 1 },
        nodes := ((s.nodes ++ [Node.mk v NullOffset 0]).set j ({ tn with next := endOff s })),
        writes := s.writes + 3 } := by
  obtain ⟨hlt, _⟩ := List.get?_eq_some.mp hget
  have hread : readNodeAt (OffState.mk s.hdr
      (s.nodes ++ [Node.mk v NullOffset 0]) (s.writes + 1)) (offOf j) = some tn := by
    rw [readNodeAt_offOf]
    exact hget
  have hj2 : j < (OffState.mk s.hdr
      (s.nodes ++ [Node.mk v NullOffset 0])
      (s.writes + 1)).nodes.length := by
    simpa using hlt
  have hwrite := writeNodeAt_offOf_lt hj2 ({ tn with next := endOff s })
  simp [appendTail, writeNodeAt_end, Option.bind, putHeader, hh, htail, hread, hwrite]

/-- C8: a successful delete links the tombstoned record into the free list —
its `Next` is set to the old free-list head and the header's `FreeList` to
its offset — yet the insert operations never consult the free list when
allocating: `appendTail` and `prependHead` always write the new record at
the current end of file (record index = old record count) and leave
`FreeList` unchanged. -/
theorem c8_freelist_tracked_never_reused :
    (∀ (s : OffState) (v : Nat) (s' : OffState), appendTail s v = some s' →
        s'.hdr.freeList = s.hdr.freeList ∧
        s'.nodes.length = s.nodes.length + 1 ∧
        ∃ m, s'.nodes.get? s.nodes.length = some m ∧ m.value = v ∧ m.tomb = 0) ∧
    (∀ (s : OffState) (v : Nat) (s' : OffState), prependHead s v = some s' →
        s'.hdr.freeList = s.hdr.freeList ∧
        s'.nodes.length = s.nodes.length + 1 ∧
        s'.nodes.get? s.nodes.length = some (Node.mk v s.hdr.headOffset 0)) ∧
    (∀ (s : OffState) (v : Nat) (s' : OffState) (l : List Nat),
        ChainSeg s.nodes NullOffset s.hdr.headOffset l → l.Nodup →
        s.hdr.tailOffset = lastOff l → s.hdr.size = (l.length : Int) →
        deleteFirstByValue s v = some (s', true) →
        ∃ i n, s.nodes.get? i = some n ∧ n.value = v ∧ n.tomb = 0 ∧
          s'.hdr.freeList = offOf i ∧
          s'.nodes.get? i = some (Node.mk n.value s.hdr.freeList 1)) := by
  refine ⟨?_, ?_, ?_⟩
  · -- appendTail: end-of-file write, free list untouched
    intro s v s' h
    by_cases hh : s.hdr.headOffset = NullOffset
    · rw [appendTail_empty s v hh] at h
      obtain rfl := Option.some.inj h
      exact ⟨rfl, by simp, Node.mk v NullOffset 0, List.get?_concat_length _ _, rfl, rfl⟩
    · cases hr : readNodeAt (OffState.mk s.hdr
          (s.nodes ++ [Node.mk v NullOffset 0]) (s.writes + 1)) s.hdr.tailOffset with
      | none =>
        have hnone : appendTail s v = none := by
          simp [appendTail, writeNodeAt_end, Option.bind, hh, hr]
        rw [hnone] at h
        exact absurd h (by simp)
      | some tn =>
        obtain ⟨jr, hoffjr, hgetjr⟩ := readNodeAt_eq_some hr
        have heq := appendTail_nonempty_any s v hh jr tn hoffjr hgetjr
        rw [heq] at h
        obtain rfl := Option.some.inj h
        refine ⟨rfl, by simp, ?_⟩
        by_cases hj : jr = s.nodes.length
        · subst hj
          have htn : tn = Node.mk v NullOffset 0 := by
            have h2 := List.get?_concat_length s.nodes (Node.mk v NullOffset 0)
            rw [hgetjr] at h2
            exact Option.some.inj h2
          refine ⟨{ tn with next := endOff s }, ?_, by rw [htn], by rw [htn]⟩
          rw [List.get?_set_eq_of_lt]
          simp
        · refine ⟨Node.mk v NullOffset 0, ?_, rfl, rfl⟩
          rw [List.get?_set_ne _ _ hj]
          exact List.get?_concat_length _ _
  · -- prependHead: end-of-file write, free list untouched
    intro s v s' h
    rw [prependHead_eq s v] at h
    obtain rfl := Option.some.inj h
    exact ⟨rfl, by simp, List.get?_concat_length _ _⟩
  · -- delete: tombstoned record becomes the free-list head
    intro s v s' l hc hnd htail hsize h
    unfold deleteFirstByValue at h
    by_cases hh : s.hdr.headOffset = NullOffset
    · rw [if_pos hh] at h
      simp at h
    · rw [if_neg hh] at h
      have hlen : l.length ≤ s.nodes.length :=
        nodup_bounded_length hnd (chainSeg_mem_lt hc)
      obtain ⟨r, hrun, hres⟩ := deleteLoop_spec v l (s.nodes.length + 1) s []
        s.hdr.headOffset NullOffset ChainSeg.nil hc (by simpa using hnd)
        (by simpa using htail) (by simpa using hsize) (fun _ => rfl)
        (by intro j hj; simp at hj) (by omega)
      rw [hrun] at h
      obtain rfl := Option.some.inj h
      rcases hres with ⟨hreq, _⟩ | ⟨_, _, _, i, n, _, hget, hval, htomb, hfree, hgetset⟩
      · have := congrArg Prod.snd hreq
        simp at this
      · exact ⟨i, n, hget, hval, htomb, hfree, hgetset⟩

/-- C8 (witness): the three parts applied to a concrete history — append 5
to the fresh list, prepend 9, then delete 5. -/
theorem c8_freelist_witness :
    (c8sA.hdr.freeList = freshState.hdr.freeList ∧
     c8sA.nodes.length = freshState.nodes.length + 1 ∧
     ∃ m, c8sA.nodes.get? freshState.nodes.length = some m ∧ m.value = 5 ∧ m.tomb = 0) ∧
    (c8sB.hdr.freeList = c8sA.hdr.freeList ∧
     c8sB.nodes.length = c8sA.nodes.length + 1 ∧
     c8sB.nodes.get? c8sA.nodes.length = some (Node.mk 9 c8sA.hdr.headOffset 0)) ∧
    (∃ i n, c8sB.nodes.get? i = some n ∧ n.value = 5 ∧ n.tomb = 0 ∧
      c8sC.hdr.freeList = offOf i ∧
      c8sC.nodes.get? i = some (Node.mk n.value c8sB.hdr.freeList 1)) :=
  ⟨c8_freelist_tracked_never_reused.1 freshState 5 c8sA (by decide),
   c8_freelist_tracked_never_reused.2.1 c8sA 9 c8sB (by decide),
   c8_freelist_tracked_never_reused.2.2 c8sB 5 c8sC [1, 0]
     (@ChainSeg.cons c8sB.nodes NullOffset 1 (Node.mk 9 40 0) [0] rfl rfl
       (@ChainSeg.cons c8sB.nodes NullOffset 0 (Node.mk 5 NullOffset 0) [] rfl rfl
         ChainSeg.nil))
     (by decide) (by decide) (by decide) (by decide)⟩

/-- C7 (witness): the open theorem applied to a file holding exactly one
fresh header. -/
theorem c7_open_validates_magic_witness :
    40 ≤ (writeHeaderBytes freshHeader).length ∧
    ((slice (writeHeaderBytes freshHeader) 0 4 ≠ Magic →
        openList (writeHeaderBytes freshHeader) false =
          Except.error ReadError.invalidMagic) ∧
     (slice (writeHeaderBytes freshHeader) 0 4 = Magic →
        ∃ hdr, readHeaderBytes (writeHeaderBytes freshHeader) = Except.ok hdr ∧
          openList (writeHeaderBytes freshHeader) false =
            Except.ok (hdr, writeHeaderBytes freshHeader))) :=
  ⟨by decide, c7_open_validates_magic (writeHeaderBytes freshHeader) (by decide)⟩

end OffsetList

namespace PagedList

theorem set_concat {α : Type} (l : List α) (a b : α) :
    (l ++ [a]).set l.length b = l ++ [b] := by
  induction l with
  | nil => rfl
  | cons x t ih => simp [List.set, ih]

theorem allocateSlot_fresh (s : PState) (h0 : s.hdr.pageCount = 0)
    (hlen : s.pages = []) :
    allocateSlot s = some
      ({ hdr := { s.hdr with pageCount := 1 },
         pages := [{ emptyPage with used := 1 }] }, 0, 0) := by
  have hno : ¬ SLOTS_PER_PAGE ≤ emptyPage.used := by decide
  have hnz : ¬ SLOTS_PER_PAGE = 0 := by decide
  simp [allocateSlot, initEmptyPage, readPageHeader, writePageHeader, h0, hlen,
    Option.bind, hno, hnz, emptyPage]

theorem allocateSlot_lastFree (s : PState) (pg : Page) (h0 : ¬ s.hdr.pageCount = 0)
    (hget : s.pages.get? (s.hdr.pageCount - 1) = some pg)
    (hfree : pg.used < SLOTS_PER_PAGE) :
    allocateSlot s = some
      ({ s with pages := s.pages.set (s.hdr.pageCount - 1) { pg with used := pg.used + 1 } },
       s.hdr.pageCount - 1, pg.used) := by
  have hno : ¬ SLOTS_PER_PAGE ≤ pg.used := by omega
  have hgetE : s.pages[s.hdr.pageCount - 1]? = some pg := by
    rw [← List.get?_eq_getElem?]
    exact hget
  simp [allocateSlot, readPageHeader, writePageHeader, h0, hgetE, Option.bind, hno]

theorem allocateSlot_newPage (s : PState) (pg : Page) (h0 : ¬ s.hdr.pageCount = 0)
    (hwf : s.pages.length = s.hdr.pageCount)
    (hget : s.pages.get? (s.hdr.pageCount - 1) = some pg)
    (hfull : SLOTS_PER_PAGE ≤ pg.used) :
    allocateSlot s = some
      ({ hdr := { s.hdr with pageCount := s.hdr.pageCount + 1 },
         pages := s.pages ++ [{ emptyPage with used := 1 }] },
       s.hdr.pageCount, 0) := by
  have hinit : initEmptyPage s s.hdr.pageCount
      = some { s with pages := s.pages ++ [emptyPage] } := by
    unfold initEmptyPage
    rw [if_neg (by omega), if_pos hwf.symm]
  have hwph : writePageHeader
      (PState.mk { s.hdr with pageCount := s.hdr.pageCount + 1 }
        (s.pages ++ [emptyPage])) s.hdr.pageCount 1
      = some (PState.mk { s.hdr with pageCount := s.hdr.pageCount + 1 }
        (s.pages ++ [{ emptyPage with used := 1 }])) := by
    unfold writePageHeader
    have hg2 : (s.pages ++ [emptyPage]).get? s.hdr.pageCount = some emptyPage := by
      rw [← hwf]
      exact List.get?_concat_length _ _
    rw [hg2]
    have hs2 : (s.pages ++ [emptyPage]).set s.hdr.pageCount { emptyPage with used := 1 }
        = s.pages ++ [{ emptyPage with used := 1 }] := by
      rw [← hwf]
      exact set_concat _ _ _
    simp [hs2]
  have hgetE : s.pages[s.hdr.pageCount - 1]? = some pg := by
    rw [← List.get?_eq_getElem?]
    exact hget
  simp [allocateSlot, readPageHeader, h0, hgetE, hfull, Option.bind, hinit, hwph]

/-- C4: on every paged-list state whose page count matches the pages on
disk, `allocateSlot` behaves as specified: an empty file gets a zero-filled
page 0 with slot 0 returned; otherwise the last page's used-slot-count is
inspected and, below capacity, the next free slot of that page is returned;
at capacity a new zero-filled page is appended, the page count grows, and
slot 0 of the new page is returned.  In every case the chosen page's
used-slot-count is incremented and persisted, and the page count never
decreases. -/
theorem c4_allocateSlot_spec (s : PState) (hwf : s.pages.length = s.hdr.pageCount) :
    ∃ s' pid slot, allocateSlot s = some (s', pid, slot) ∧
      (s.hdr.pageCount = 0 →
        pid = 0 ∧ slot = 0 ∧ s'.hdr.pageCount = 1 ∧
        s'.pages = [{ emptyPage with used := 1 }]) ∧
      (∀ pg, s.hdr.pageCount ≠ 0 →
        s.pages.get? (s.hdr.pageCount - 1) = some pg →
        (pg.used < SLOTS_PER_PAGE →
            pid = s.hdr.pageCount - 1 ∧ slot = pg.used ∧
            s'.hdr.pageCount = s.hdr.pageCount ∧
            s'.pages = s.pages.set (s.hdr.pageCount - 1) { pg with used := pg.used + 1 }) ∧
        (SLOTS_PER_PAGE ≤ pg.used →
            pid = s.hdr.pageCount ∧ slot = 0 ∧
            s'.hdr.pageCount = s.hdr.pageCount + 1 ∧
            s'.pages = s.pages ++ [{ emptyPage with used := 1 }])) ∧
      readPageHeader s' pid = some (slot + 1) ∧
      s.hdr.pageCount ≤ s'.hdr.pageCount := by
  by_cases h0 : s.hdr.pageCount = 0
  · have hlen : s.pages = [] := by
      rw [h0] at hwf
      exact List.length_eq_zero.mp hwf
    refine ⟨_, 0, 0, allocateSlot_fresh s h0 hlen, ?_, ?_, ?_, ?_⟩
    · intro _
      exact ⟨rfl, rfl, rfl, rfl⟩
    · intro pg hne _
      exact absurd h0 hne
    · simp [readPageHeader, emptyPage]
    · simp
      omega
  · have hlt : s.hdr.pageCount - 1 < s.pages.length := by omega
    obtain ⟨pg, hget⟩ : ∃ pg, s.pages.get? (s.hdr.pageCount - 1) = some pg := by
      cases hq : s.pages.get? (s.hdr.pageCount - 1) with
      | none =>
        rw [List.get?_eq_none] at hq
        omega
      | some pg => exact ⟨pg, rfl⟩
    by_cases hfree : pg.used < SLOTS_PER_PAGE
    · refine ⟨_, s.hdr.pageCount - 1, pg.used,
        allocateSlot_lastFree s pg h0 hget hfree, ?_, ?_, ?_, ?_⟩
      · intro h
        exact absurd h h0
      · intro pg2 _ hget2
        have hpg : pg2 = pg := by
          rw [hget] at hget2
          exact (Option.some.inj hget2).symm
        subst hpg
        exact ⟨fun _ => ⟨rfl, rfl, rfl, rfl⟩, fun hfull => absurd hfull (by omega)⟩
      · show ((s.pages.set (s.hdr.pageCount - 1)
            { pg with used := pg.used + 1 }).get? (s.hdr.pageCount - 1)).map Page.used
          = some (pg.used + 1)
        rw [List.get?_set_eq_of_lt _ hlt]
        rfl
      · simp
    · have hfull : SLOTS_PER_PAGE ≤ pg.used := by omega
      refine ⟨_, s.hdr.pageCount, 0,
        allocateSlot_newPage s pg h0 hwf hget hfull, ?_, ?_, ?_, ?_⟩
      · intro h
        exact absurd h h0
      · intro pg2 _ hget2
        have hpg : pg2 = pg := by
          rw [hget] at hget2
          exact (Option.some.inj hget2).symm
        subst hpg
        exact ⟨fun hfree2 => absurd hfree2 (by omega), fun _ => ⟨rfl, rfl, rfl, rfl⟩⟩
      · show ((s.pages ++ [{ emptyPage with used := 1 }]).get? s.hdr.pageCount).map Page.used
          = some 1
        rw [← hwf, List.get?_concat_length]
        rfl
      · simp

/-- C4 (witness): the allocator theorem applied to the empty paged list. -/
theorem c4_allocateSlot_spec_witness :
    freshPState.pages.length = freshPState.hdr.pageCount ∧
    (∃ s' pid slot, allocateSlot freshPState = some (s', pid, slot) ∧
      (freshPState.hdr.pageCount = 0 →
        pid = 0 ∧ slot = 0 ∧ s'.hdr.pageCount = 1 ∧
        s'.pages = [{ emptyPage with used := 1 }]) ∧
      (∀ pg, freshPState.hdr.pageCount ≠ 0 →
        freshPState.pages.get? (freshPState.hdr.pageCount - 1) = some pg →
        (pg.used < SLOTS_PER_PAGE →
            pid = freshPState.hdr.pageCount - 1 ∧ slot = pg.used ∧
            s'.hdr.pageCount = freshPState.hdr.pageCount ∧
            s'.pages = freshPState.pages.set (freshPState.hdr.pageCount - 1)
              { pg with used := pg.used + 1 }) ∧
        (SLOTS_PER_PAGE ≤ pg.used →
            pid = freshPState.hdr.pageCount ∧ slot = 0 ∧
            s'.hdr.pageCount = freshPState.hdr.pageCount + 1 ∧
            s'.pages = freshPState.pages ++ [{ emptyPage with used := 1 }])) ∧
      readPageHeader s' pid = some (slot + 1) ∧
      freshPState.hdr.pageCount ≤ s'.hdr.pageCount) :=
  ⟨rfl, c4_allocateSlot_spec freshPState rfl⟩

end PagedList

namespace PagedList

theorem runsCountFrom_le : ∀ (l : List Nat) (c : Option Nat),
    runsCountFrom c l ≤ l.length := by
  intro l
  induction l with
  | nil => intro c; simp [runsCountFrom]
  | cons a rest ih =>
    intro c
    simp only [runsCountFrom, List.length_cons]
    have := ih (some a)
    by_cases hc : c = some a <;> simp [hc] <;> omega

theorem runsCountFrom_lt_of_adj : ∀ (l : List Nat) (c : Option Nat),
    hasAdjacentSharedPage l = true → runsCountFrom c l < l.length := by
  intro l
  induction l with
  | nil => intro c h; simp [hasAdjacentSharedPage] at h
  | cons a rest ih =>
    intro c h
    cases rest with
    | nil => simp [hasAdjacentSharedPage] at h
    | cons b t =>
      simp only [hasAdjacentSharedPage, Bool.or_eq_true, beq_iff_eq] at h
      have he : (if c = some a then 0 else 1) ≤ 1 := by split <;> omega
      by_cases hab : a = b
      · subst hab
        have hcc : runsCountFrom c (a :: a :: t)
            = (if c = some a then 0 else 1) + runsCountFrom (some a) t := by
          simp [runsCountFrom]
        have h1 := runsCountFrom_le t (some a)
        rw [hcc]
        simp only [List.length_cons]
        omega
      · have h2 : hasAdjacentSharedPage (b :: t) = true := by
          rcases h with h | h
          · exact absurd h hab
          · exact h
        have h1 := ih (some a) h2
        simp only [runsCountFrom, List.length_cons] at h1 ⊢
        omega

theorem readSlot_eq_some {s : PState} {page slot : Nat} {node : Node}
    (h : readSlot s page slot = some node) :
    ∃ pg, s.pages[page]? = some pg ∧ pg.slots[slot]? = some node := by
  unfold readSlot at h
  cases hq : s.pages.get? page with
  | none => rw [hq] at h; simp at h
  | some pg =>
    rw [hq] at h
    simp at h
    exact ⟨pg, by rw [← List.get?_eq_getElem?]; exact hq, h⟩

/-- Helper: the unbuffered traversal returns the live values of the visit
sequence and reads one slot per visit. -/
theorem visitsLoop_unbuffered {s : PState} :
    ∀ (fuel page slot : Nat) (vl : List (Nat × Nat × Node)),
      visitsLoop s page slot fuel = some vl →
      traverseLoopU s page slot fuel = some (liveValues vl, vl.length) := by
  intro fuel
  induction fuel with
  | zero => intro page slot vl h; simp [visitsLoop] at h
  | succ f ih =>
    intro page slot vl h
    by_cases hc : page ≠ NullPage ∧ slot ≠ NullSlot
    · simp only [visitsLoop] at h
      rw [if_pos hc] at h
      cases hr : readSlot s page slot with
      | none => rw [hr] at h; simp at h
      | some node =>
        rw [hr] at h
        simp only [Option.bind_eq_bind, Option.some_bind] at h
        cases hv : visitsLoop s node.nextPage node.nextSlot f with
        | none => rw [hv] at h; simp at h
        | some rest =>
          rw [hv] at h
          simp only [Option.some_bind'] at h
          injection h with h
          subst h
          have hrec := ih node.nextPage node.nextSlot rest hv
          simp only [traverseLoopU]
          rw [if_pos hc, hr]
          simp [hrec, liveValues]
    · simp only [visitsLoop] at h
      rw [if_neg hc] at h
      injection h with h
      subst h
      simp only [traverseLoopU]
      rw [if_neg hc]
      simp [liveValues]

/-- Helper: the buffered traversal returns the same live values and loads a
page exactly when the visit's page differs from the cached one. -/
theorem visitsLoop_buffered {s : PState} :
    ∀ (fuel page slot : Nat) (pb : PageBuffer) (vl : List (Nat × Nat × Node)),
      visitsLoop s page slot fuel = some vl → BufOk s pb →
      traverseLoopB s page slot pb fuel
        = some (liveValues vl, runsCountFrom (cachedPage pb) (visitPages vl)) := by
  intro fuel
  induction fuel with
  | zero => intro page slot pb vl h _; simp [visitsLoop] at h
  | succ f ih =>
    intro page slot pb vl h hok
    by_cases hc : page ≠ NullPage ∧ slot ≠ NullSlot
    · simp only [visitsLoop] at h
      rw [if_pos hc] at h
      cases hr : readSlot s page slot with
      | none => rw [hr] at h; simp at h
      | some node =>
        rw [hr] at h
        simp only [Option.bind_eq_bind, Option.some_bind] at h
        obtain ⟨pg, hpg, hslot⟩ := readSlot_eq_some hr
        cases hv : visitsLoop s node.nextPage node.nextSlot f with
        | none => rw [hv] at h; simp at h
        | some rest =>
          rw [hv] at h
          simp only [Option.some_bind'] at h
          injection h with h
          subst h
          by_cases hcached : cachedPage pb = some page
          · have hvp : pb.valid = true ∧ pb.pageID = page := by
              unfold cachedPage at hcached
              by_cases hv2 : pb.valid = true
              · rw [if_pos hv2] at hcached
                exact ⟨hv2, Option.some.inj hcached⟩
              · rw [if_neg hv2] at hcached
                exact absurd hcached (by simp)
            obtain ⟨pg2, hpg2, hdata⟩ := hok hvp.1
            rw [List.get?_eq_getElem?, hvp.2, hpg] at hpg2
            have hpg3 : pg2 = pg := (Option.some.inj hpg2).symm
            subst hpg3
            have hnc : ¬ (pb.valid = false ∨ pb.pageID ≠ page) := by
              rintro (hx | hx)
              · rw [hvp.1] at hx; cases hx
              · exact hx hvp.2
            have hread : readSlotWithBuffer s pb page slot = some (node, pb, 0) := by
              unfold readSlotWithBuffer
              rw [if_neg hnc]
              simp [hdata, hslot]
            have hrec := ih node.nextPage node.nextSlot pb rest hv hok
            simp only [traverseLoopB]
            rw [if_pos hc, hread]
            simp [hrec, liveValues, visitPages, runsCountFrom, hcached, hvp.2]
          · have hcond : pb.valid = false ∨ pb.pageID ≠ page := by
              unfold cachedPage at hcached
              by_cases hv2 : pb.valid = true
              · rw [if_pos hv2] at hcached
                exact Or.inr fun he => hcached (by rw [he])
              · exact Or.inl (by simpa using hv2)
            have hload : loadPage s pb page = some (PageBuffer.mk page (some pg) true) := by
              unfold loadPage
              simp [hpg]
            have hread : readSlotWithBuffer s pb page slot
                = some (node, PageBuffer.mk page (some pg) true, 1) := by
              unfold readSlotWithBuffer
              rw [if_pos hcond]
              simp [hload, hslot]
            have hok2 : BufOk s (PageBuffer.mk page (some pg) true) :=
              fun _ => ⟨pg, by rw [List.get?_eq_getElem?]; exact hpg, rfl⟩
            have hrec := ih node.nextPage node.nextSlot (PageBuffer.mk page (some pg) true)
              rest hv hok2
            have hcp : cachedPage (PageBuffer.mk page (some pg) true) = some page := rfl
            have hone : (if cachedPage pb = some page then (0 : Nat) else 1) = 1 :=
              if_neg hcached
            simp only [traverseLoopB]
            rw [if_pos hc, hread]
            simp [hrec, liveValues, visitPages, runsCountFrom, hcp, hone]
            omega
    · simp only [visitsLoop] at h
      rw [if_neg hc] at h
      injection h with h
      subst h
      simp only [traverseLoopB]
      rw [if_neg hc]
      simp [liveValues, visitPages, runsCountFrom]

/-- C5: on every paged-list state whose logical traversal terminates with
visit sequence `vl` (every well-formed state does), the buffered
`TraverseValues` returns exactly the same value sequence as the unbuffered
traversal that reads each slot individually with `readSlot`; the unbuffered
traversal issues one slot read per visited record while the buffered one
loads a full page only when the requested page id differs from the cached
one (or the cache is still invalid) — exactly one load per maximal run of
consecutive same-page visits, which is at most the number of visits, and
strictly fewer whenever two consecutive records share a page. -/
theorem c5_buffered_traversal (s : PState) (vl : List (Nat × Nat × Node))
    (h : visits s = some vl) :
    traverseValuesUnbuffered s = some (liveValues vl, vl.length) ∧
    TraverseValues s = some (liveValues vl, runsCount (visitPages vl)) ∧
    runsCount (visitPages vl) ≤ vl.length ∧
    (hasAdjacentSharedPage (visitPages vl) = true →
      runsCount (visitPages vl) < vl.length) := by
  refine ⟨visitsLoop_unbuffered _ _ _ _ h, ?_, ?_, ?_⟩
  · have hb := visitsLoop_buffered (totalSlots s + 1) s.hdr.headPage s.hdr.headSlot
      ⟨0, none, false⟩ vl h (fun hx => by simp at hx)
    simpa [TraverseValues, runsCount, cachedPage] using hb
  · have h1 := runsCountFrom_le (visitPages vl) none
    simpa [runsCount, visitPages] using h1
  · intro hadj
    have h1 := runsCountFrom_lt_of_adj (visitPages vl) none hadj
    simpa [runsCount, visitPages] using h1

/-- C5 (witness): the traversal-equivalence theorem applied to a one-page
list with three chained records — one page load versus three slot reads. -/
theorem c5_buffered_traversal_witness :
    visits c5State = some c5Visits ∧
    (traverseValuesUnbuffered c5State = some (liveValues c5Visits, c5Visits.length) ∧
     TraverseValues c5State = some (liveValues c5Visits, runsCount (visitPages c5Visits)) ∧
     runsCount (visitPages c5Visits) ≤ c5Visits.length ∧
     (hasAdjacentSharedPage (visitPages c5Visits) = true →
       runsCount (visitPages c5Visits) < c5Visits.length)) :=
  ⟨by decide, c5_buffered_traversal c5State c5Visits (by decide)⟩

end PagedList

namespace CompareTool

theorem statsSlots_eq {s : CState} {p : Nat} {pg : Page}
    (hpg : s.pages.get? p = some pg) :
    ∀ k, k ≤ pg.slots.length → statsSlots s p k = some k := by
  intro k
  induction k with
  | zero => intro _; rfl
  | succ n ih =>
    intro hk
    have hn := ih (Nat.le_of_succ_le hk)
    cases hnd : pg.slots.get? n with
    | none =>
      exfalso
      rw [List.get?_eq_getElem?] at hnd
      have := List.getElem?_eq_none_iff.mp hnd
      omega
    | some nd =>
      have hrs : readSlot s p n = some nd := by
        unfold readSlot
        rw [hpg]
        simp only [Option.bind_eq_bind, Option.some_bind]
        exact hnd
      simp only [statsSlots]
      rw [hn]
      simp only [Option.bind_eq_bind, Option.some_bind]
      rw [hrs]
      simp only [Option.some_bind']
      rfl

theorem statsPages_eq {s : CState}
    (hused : ∀ pg ∈ s.pages, pg.used ≤ pg.slots.length) :
    ∀ p, p ≤ s.pages.length →
      statsPages s p = some (((s.pages.take p).map Page.used).sum) := by
  intro p
  induction p with
  | zero => intro _; rfl
  | succ n ih =>
    intro hp
    have hn := ih (by omega)
    cases hpg : s.pages.get? n with
    | none =>
      exfalso
      rw [List.get?_eq_getElem?] at hpg
      have := List.getElem?_eq_none_iff.mp hpg
      omega
    | some pg =>
      have hpgE : s.pages[n]? = some pg := by
        rw [← List.get?_eq_getElem?]; exact hpg
      have hmem : pg ∈ s.pages := List.get?_mem hpg
      have hh : readPageHeader s n = some pg.used := by
        unfold readPageHeader; rw [hpg]; rfl
      have hss := statsSlots_eq hpg pg.used (hused pg hmem)
      simp only [statsPages]
      rw [hn]
      simp only [Option.bind_eq_bind, Option.some_bind]
      rw [hh]
      simp only [Option.some_bind']
      rw [hss]
      simp only [Option.some_bind']
      rw [List.take_succ, hpgE]
      simp

/-- C10: on every paged-list state with a consistent page count and
well-formed used-slot counts, the comparison tool's
`pagedTraverseWithPageStats` returns an empty values slice and an empty
page-visit map while still reading every used slot of every page (the third
component counts those slot reads); in particular the paged list length it
reports is 0 regardless of how many records the list holds. -/
theorem c10_stats_traversal_empty (s : CState)
    (hpc : s.hdr.pageCount = s.pages.length)
    (hused : ∀ pg ∈ s.pages, pg.used ≤ pg.slots.length) :
    pagedTraverseWithPageStats s = some ([], [], (s.pages.map Page.used).sum) := by
  have h := statsPages_eq hused s.hdr.pageCount (by omega)
  simp only [pagedTraverseWithPageStats]
  rw [h]
  simp only [Option.bind_eq_bind, Option.some_bind']
  rw [hpc, List.take_length]
  rfl

/-- C10 (witness): the physical-stats theorem applied to a two-page state
holding five live records — the traversal reads all five slots yet reports
no values and no page visits. -/
theorem c10_stats_traversal_empty_witness :
    (c10State.hdr.pageCount = c10State.pages.length ∧
      ∀ pg ∈ c10State.pages, pg.used ≤ pg.slots.length) ∧
    pagedTraverseWithPageStats c10State
      = some ([], [], (c10State.pages.map Page.used).sum) :=
  ⟨⟨by decide, by decide⟩,
    c10_stats_traversal_empty c10State (by decide) (by decide)⟩

end CompareTool
